import Mathlib

/-!
# webpkgs/route : the routing trie (`trie.go`)

A shallow embedding of the trie of `trie.go` and of its facade.

Modelling conventions.

* A Go `string` is a sequence of bytes; it is modelled by `Str = List Char`, one
  `Char` per byte.  `s[i:]` is `List.drop i s`, `s[:i]` is `List.take i s`.
* A Go `map[string]V` is an association list `List (Str × V)`; a lookup returns the
  first entry with the key, an assignment replaces that entry or appends a new one.
  A `nil` map is `none`, a non-nil map is `some entries`.
* A `*node` is `Option (Node H)`; the tries built by the program are trees (no node is
  shared), so a pointer update is a functional update of the path to the node.
* `interface{}` (the route handle) is `Option H` for an arbitrary type `H`; `none` is
  the `nil` interface.
* A Go `error` is `Option RouteError`; `none` is `nil`.
* Loops that do not recurse on a syntactic sub-term carry a fuel argument; the
  facade supplies enough fuel, which is proved below.
-/

namespace Route

/-- A Go string, as its sequence of bytes. -/
abbrev Str := List Char

/-! ## Segment parser (`trie.go` lines 17-41) -/

/-- The loop of `splitParamIndex`: the first argument is `remaining[i:]`, the second
the loop variable `i`. -/
def splitParamIndexLoop : Str → Nat → Nat
  | [], i => i
  | c :: rest, i => if c ≠ '/' ∧ c ≠ '.' then splitParamIndexLoop rest (i + 1) else i

/-- Go `splitParamIndex`. -/
def splitParamIndex (remaining : Str) : Nat := splitParamIndexLoop remaining 0

/-- Go `splitParam`. -/
def splitParam (remaining : Str) : Str × Str :=
  let i := splitParamIndex remaining
  (remaining.take i, remaining.drop i)

/-- The loop of `splitRelaxedIndex`. -/
def splitRelaxedIndexLoop : Str → Nat → Nat
  | [], i => i
  | c :: rest, i => if c ≠ '/' then splitRelaxedIndexLoop rest (i + 1) else i

/-- Go `splitRelaxedIndex`. -/
def splitRelaxedIndex (remaining : Str) : Nat := splitRelaxedIndexLoop remaining 0

/-- Go `splitRelaxed`. -/
def splitRelaxed (remaining : Str) : Str × Str :=
  let i := splitRelaxedIndex remaining
  (remaining.take i, remaining.drop i)

/-- The loop of `Index`: `idx` is the position of the head of the first argument. -/
def IndexLoop : List Str → Str → Nat → Int
  | [], _, _ => -1
  | ss :: rest, s, idx => if ss = s then (idx : Int) else IndexLoop rest s (idx + 1)

/-- Go `Index`: the index of the first instance of `s` in `sa`, or -1. -/
def Index (sa : List Str) (s : Str) : Int := IndexLoop sa s 0

/-- Go `Contains`. -/
def Contains (sa : List Str) (s : Str) : Bool := decide (Index sa s ≥ 0)

/-! ## Maps -/

/-- Go `m[k]` for a non-nil map: the value of the first entry with key `k`. -/
def mapGet {V : Type} : List (Str × V) → Str → Option V
  | [], _ => none
  | (k, v) :: rest, key => if k = key then some v else mapGet rest key

/-- Go `m[k] = v`: replace the entry of `k`, or add one. -/
def mapSet {V : Type} : List (Str × V) → Str → V → List (Str × V)
  | [], key, val => [(key, val)]
  | (k, v) :: rest, key, val =>
    if k = key then (k, val) :: rest else (k, v) :: mapSet rest key val

/-! ## The node (`trie.go` lines 57-75) -/

/-- Go `node`.  The fields `paramNames` and `paramCount` are never read nor written
by the program and are left out. -/
structure Node (H : Type) : Type where
  Children : Option (List (Str × Node H))
  ChildrenKeyLen : Nat
  ParamChild : Option (Node H)
  ParamName : Str
  RelaxedChild : Option (Node H)
  RelaxedName : Str
  SplatChild : Option (Node H)
  SplatName : Str
  HttpMethodToRoute : Option (List (Str × Option H))

/-- The zero value `&node{}`. -/
def Node.empty {H : Type} : Node H :=
  { Children := none, ChildrenKeyLen := 0, ParamChild := none, ParamName := [],
    RelaxedChild := none, RelaxedName := [], SplatChild := none, SplatName := [],
    HttpMethodToRoute := none }

/-- The errors `addRoute` builds with `fmt.Errorf`. -/
inductive RouteError where
  /-- "A route can't have two placeholders with the same name: %s". -/
  | duplicatePlaceholderName (name : Str)
  /-- "Routes sharing a common placeholder MUST name it consistently: %s != %s". -/
  | inconsistentPlaceholderName (have_ : Str) (name : Str)
  deriving DecidableEq, Repr

/-! ## Insertion (`trie.go` lines 77-182) -/

/-- The loop of `node.addRoute`, from the node `nextNode` on.  `params` is the field
`r.params` of the route; the result is the subtree at `nextNode` after the loop and
the error returned.  One unit of fuel is used by each iteration.

In the splat case the source assigns `nextNode = n.SplatChild` (the child of the
receiver, not of `nextNode`); `remaining` is empty there, the loop ends, and
`nextNode` is not read again (the bookkeeping after the loop, lines 164-179, is
commented out), so the assignment has no effect. -/
def addRouteLoop {H : Type} : Nat → Node H → Str → List Str → Node H × Option RouteError
  | _, nextNode, [], _ => (nextNode, none)
  | 0, nextNode, _ :: _, _ => (nextNode, none)
  | fuel + 1, nextNode, token :: remaining, params =>
    if token = ':' then
      let name := (splitParam remaining).1
      let remaining := (splitParam remaining).2
      if Contains params name then
        (nextNode, some (.duplicatePlaceholderName name))
      else
        let params := params ++ [name]
        match nextNode.ParamChild with
        | none =>
          let res := addRouteLoop fuel Node.empty remaining params
          ({ nextNode with ParamChild := some res.1, ParamName := name }, res.2)
        | some child =>
          if nextNode.ParamName ≠ name then
            (nextNode, some (.inconsistentPlaceholderName nextNode.ParamName name))
          else
            let res := addRouteLoop fuel child remaining params
            ({ nextNode with ParamChild := some res.1 }, res.2)
    else if token = '#' then
      let name := (splitRelaxed remaining).1
      let remaining := (splitRelaxed remaining).2
      if Contains params name then
        (nextNode, some (.duplicatePlaceholderName name))
      else
        let params := params ++ [name]
        match nextNode.RelaxedChild with
        | none =>
          let res := addRouteLoop fuel Node.empty remaining params
          ({ nextNode with RelaxedChild := some res.1, RelaxedName := name }, res.2)
        | some child =>
          if nextNode.RelaxedName ≠ name then
            (nextNode, some (.inconsistentPlaceholderName nextNode.RelaxedName name))
          else
            let res := addRouteLoop fuel child remaining params
            ({ nextNode with RelaxedChild := some res.1 }, res.2)
    else if token = '*' then
      let name := remaining
      if Contains params name then
        (nextNode, some (.duplicatePlaceholderName name))
      else
        match nextNode.SplatChild with
        | none => ({ nextNode with SplatChild := some Node.empty, SplatName := name }, none)
        | some _ => (nextNode, none)
    else
      let children := match nextNode.Children with
        | none => ([] : List (Str × Node H))
        | some m => m
      let keyLen := match nextNode.Children with
        | none => 1
        | some _ => nextNode.ChildrenKeyLen
      let child := match mapGet children [token] with
        | none => Node.empty
        | some c => c
      let res := addRouteLoop fuel child remaining params
      ({ nextNode with Children := some (mapSet children [token] res.1),
                       ChildrenKeyLen := keyLen }, res.2)

/-- Go `node.addRoute(pathExp, r)`; `params` is `r.params` on entry. -/
def Node.addRoute {H : Type} (n : Node H) (pathExp : Str) (params : List Str) :
    Node H × Option RouteError :=
  addRouteLoop pathExp.length n pathExp params

/-! ## Compression (`trie.go` lines 184-226) -/

/-- The test of lines 202-207: no child ends a route or has a placeholder child. -/
def canCompress {H : Type} (children : List (Str × Node H)) : Bool :=
  children.all fun kv =>
    !(kv.2.HttpMethodToRoute.isSome || kv.2.SplatChild.isSome ||
      kv.2.ParamChild.isSome || kv.2.RelaxedChild.isSome)

/-- The inner loop of lines 212-215: the children `gdChildren` of the child under `key`
are put into `merged` under `key + gdKey`. -/
def mergeGrandChildren {H : Type} (key : Str) (gdChildren : Option (List (Str × Node H)))
    (merged : List (Str × Node H)) : List (Str × Node H) :=
  match gdChildren with
  | none => merged
  | some m => m.foldl (fun (acc : List (Str × Node H)) gd => mapSet acc (key ++ gd.1) gd.2) merged

/-- The map `merged` of lines 210-216.  Go ranges over a map in an unspecified order;
the association list is ranged over in its own order. -/
def mergeChildren {H : Type} (children : List (Str × Node H)) : List (Str × Node H) :=
  children.foldl
    (fun (merged : List (Str × Node H)) kv => mergeGrandChildren kv.1 kv.2.Children merged) []

/-- Go `node.compress`, with one unit of fuel for each nested call.  The three
placeholder children are compressed first (lines 185-196), then the literal map. -/
def compressFuel {H : Type} : Nat → Node H → Node H
  | 0, n => n
  | fuel + 1, ⟨children, keyLen, paramChild, paramName, relaxedChild, relaxedName,
      splatChild, splatName, routes⟩ =>
    let splatChild := splatChild.map (compressFuel fuel)
    let paramChild := paramChild.map (compressFuel fuel)
    let relaxedChild := relaxedChild.map (compressFuel fuel)
    match children with
    | none =>
      ⟨none, keyLen, paramChild, paramName, relaxedChild, relaxedName,
        splatChild, splatName, routes⟩
    | some m =>
      if m.length = 0 then
        ⟨some m, keyLen, paramChild, paramName, relaxedChild, relaxedName,
          splatChild, splatName, routes⟩
      else if canCompress m then
        compressFuel fuel
          ⟨some (mergeChildren m), keyLen + 1, paramChild, paramName, relaxedChild,
            relaxedName, splatChild, splatName, routes⟩
      else
        ⟨some (m.map fun kv => (kv.1, compressFuel fuel kv.2)), keyLen, paramChild,
          paramName, relaxedChild, relaxedName, splatChild, splatName, routes⟩

mutual
/-- The number of nodes of a tree: the fuel that `compress` is given. -/
def Node.size {H : Type} : Node H → Nat
  | ⟨children, _, paramChild, _, relaxedChild, _, splatChild, _, _⟩ =>
    1 + (match children with
          | none => 0
          | some m => Node.sizeChildren m)
      + (match paramChild with
          | none => 0
          | some c => Node.size c)
      + (match relaxedChild with
          | none => 0
          | some c => Node.size c)
      + (match splatChild with
          | none => 0
          | some c => Node.size c)
/-- The number of nodes below a literal map. -/
def Node.sizeChildren {H : Type} : List (Str × Node H) → Nat
  | [] => 0
  | (_, c) :: rest => Node.size c + Node.sizeChildren rest
end

/-- The nodes below the literal map of a node, none for a nil map. -/
def sizeOfChildren {H : Type} (children : Option (List (Str × Node H))) : Nat :=
  match children with
  | none => 0
  | some m => Node.sizeChildren m

/-- The nodes below a placeholder child, none for a nil child. -/
def sizeOfChild {H : Type} (child : Option (Node H)) : Nat :=
  match child with
  | none => 0
  | some c => c.size

/-- Go `node.compress`. -/
def Node.compress {H : Type} (n : Node H) : Node H := compressFuel n.size n

/-! ## Lookup context (`trie.go` lines 260-313) -/

/-- Go `paramMatch`. -/
structure paramMatch where
  name : Str
  value : Str
  deriving DecidableEq, Repr

/-- Go `findContext`, without its field `matchFunc`: the callback is a closure over
local variables of the caller, and is passed to the traversal together with the state
of those variables. -/
structure findContext where
  path : Str
  method : Str
  paramStack : List paramMatch
  deriving DecidableEq, Repr

/-- Go `newFindContext`. -/
def newFindContext (method path : Str) : findContext :=
  { path := path, method := method, paramStack := [] }

/-- Go `findContext.pushParams`: the source appends no element to the stack (line 285
is a comment). -/
def findContext.pushParams (fc : findContext) (_name : Str) (_value : Nat) : findContext :=
  { fc with paramStack := fc.paramStack ++ [] }

/-- Go `findContext.popParams`: its body is a comment. -/
def findContext.popParams (fc : findContext) : findContext := fc

/-- Go `findContext.paramsAsMap`: the loop over the stack is a comment, the result is
the empty map. -/
def findContext.paramsAsMap (_fc : findContext) : List (Str × Str) := []

/-- Go `Match`. -/
structure Match (H : Type) where
  Route : Option H
  Params : List (Str × Str)
  deriving DecidableEq, Repr

/-- Go `node.HttpMethodToRoute[httpMethod]`: `nil` on a nil map and on a missing key. -/
def routeOf {H : Type} (routes : Option (List (Str × Option H))) (httpMethod : Str) :
    Option H :=
  match routes with
  | none => none
  | some m =>
    match mapGet m httpMethod with
    | none => none
    | some r => r

/-! ## Traversal (`trie.go` lines 315-363) -/

mutual
/-- Go `findContext.traverseNode`.  `matchFunc` gets the context, its three Go
arguments and the state of the variables it closes over, and returns that state. -/
def traverseNode {H σ : Type} (matchFunc : findContext → Str → Str → Node H → σ → σ) :
    Node H → Str → findContext → σ → findContext × σ
  | ⟨children, keyLen, paramChild, paramName, relaxedChild, relaxedName,
      splatChild, splatName, routes⟩, path, c, s =>
    let s := if routes.isSome ∧ path = [] then
        matchFunc c c.method path
          ⟨children, keyLen, paramChild, paramName, relaxedChild, relaxedName,
            splatChild, splatName, routes⟩ s
      else s
    if path.length = 0 then (c, s)
    else
      -- *splat branch
      let cs := match splatChild with
        | none => (c, s)
        | some child =>
          let r := traverseNode matchFunc child [] (c.pushParams splatName path.length) s
          (r.1.popParams, r.2)
      -- :param branch
      let cs := match paramChild with
        | none => cs
        | some child =>
          let idx := splitParamIndex path
          let r := traverseNode matchFunc child (path.drop idx) (cs.1.pushParams paramName idx) cs.2
          (r.1.popParams, r.2)
      -- #param branch
      let cs := match relaxedChild with
        | none => cs
        | some child =>
          let idx := splitRelaxedIndex path
          let r := traverseNode matchFunc child (path.drop idx)
            (cs.1.pushParams relaxedName idx) cs.2
          (r.1.popParams, r.2)
      -- main branch
      if path.length < keyLen then cs
      else
        match children with
        | none => cs
        | some m => traverseChildren matchFunc m (path.take keyLen) (path.drop keyLen) cs.1 cs.2
/-- Lines 360-362: the child under `token` in the literal map, if there is one, is
traversed with `remaining`. -/
def traverseChildren {H σ : Type} (matchFunc : findContext → Str → Str → Node H → σ → σ) :
    List (Str × Node H) → Str → Str → findContext → σ → findContext × σ
  | [], _, _, c, s => (c, s)
  | (k, child) :: rest, token, remaining, c, s =>
    if k = token then traverseNode matchFunc child remaining c s
    else traverseChildren matchFunc rest token remaining c s
end

/-! ## The facade (`trie.go` lines 365-456) -/

/-- Go `Trie`; `root` is never nil. -/
structure Trie (H : Type) where
  root : Node H

/-- Go `New`. -/
def New {H : Type} : Trie H := { root := Node.empty }

/-- Go `Trie.AddRoute`: the route handle `route` is not passed on, the node gets a
fresh `&Route{Method: httpMethod}`, whose `params` is empty. -/
def Trie.AddRoute {H : Type} (t : Trie H) (_httpMethod pathExp : Str) (_route : Option H) :
    Trie H × Option RouteError :=
  let res := t.root.addRoute pathExp []
  ({ root := res.1 }, res.2)

/-- Go `Trie.Compress`. -/
def Trie.Compress {H : Type} (t : Trie H) : Trie H := { root := t.root.compress }

/-- Go `findContext.traverseTrie`. -/
def traverseTrie {H σ : Type} (matchFunc : findContext → Str → Str → Node H → σ → σ)
    (t : Trie H) (path : Str) (c : findContext) (s : σ) : findContext × σ :=
  traverseNode matchFunc t.root path c s

/-- The closure `context.matchFunc` of `FindRoutes`; its state is the slice `matches`. -/
def findRoutesMatchFunc {H : Type} (context : findContext) (httpMethod _path : Str)
    (node : Node H) (found : List (Match H)) : List (Match H) :=
  match routeOf node.HttpMethodToRoute httpMethod with
  | none => found
  | some r => found ++ [{ Route := some r, Params := context.paramsAsMap }]

/-- Go `Trie.FindRoutes`. -/
def Trie.FindRoutes {H : Type} (t : Trie H) (httpMethod path : Str) : List (Match H) :=
  (traverseTrie findRoutesMatchFunc t path (newFindContext httpMethod path) []).2

/-- The closure of `FindRoutesAndPathMatched`; its state is `(matches, pathMatched)`. -/
def findRoutesAndPathMatchedMatchFunc {H : Type} (context : findContext)
    (httpMethod _path : Str) (node : Node H) (st : List (Match H) × Bool) :
    List (Match H) × Bool :=
  match routeOf node.HttpMethodToRoute httpMethod with
  | none => (st.1, true)
  | some r => (st.1 ++ [{ Route := some r, Params := context.paramsAsMap }], true)

/-- Go `Trie.FindRoutesAndPathMatched`. -/
def Trie.FindRoutesAndPathMatched {H : Type} (t : Trie H) (httpMethod path : Str) :
    List (Match H) × Bool :=
  (traverseTrie findRoutesAndPathMatchedMatchFunc t path (newFindContext httpMethod path)
    ([], false)).2

/-- The closure of `FindRoutesForPath`: one match for each entry of the node. -/
def findRoutesForPathMatchFunc {H : Type} (context : findContext) (_httpMethod _path : Str)
    (node : Node H) (found : List (Match H)) : List (Match H) :=
  let params := context.paramsAsMap
  match node.HttpMethodToRoute with
  | none => found
  | some m => m.foldl (fun (acc : List (Match H)) kv => acc ++ [{ Route := kv.2, Params := params }])
      found

/-- Go `Trie.FindRoutesForPath`. -/
def Trie.FindRoutesForPath {H : Type} (t : Trie H) (path : Str) : List (Match H) :=
  (traverseTrie findRoutesForPathMatchFunc t path (newFindContext [] path) []).2

/-- A trie after a sequence of `AddRoute` calls `(method, pattern, handle)`, errors
being dropped as the tests do. -/
def Trie.AddRoutes {H : Type} (t : Trie H) (calls : List (Str × Str × Option H)) : Trie H :=
  calls.foldl (fun (acc : Trie H) call => (acc.AddRoute call.1 call.2.1 call.2.2).1) t

/-! ## The single-placeholder route (`route.go` lines 16-91) -/

set_option linter.dupNamespace false

/-- Go `strings.Split(s, "/")`: the segments of `s` between the '/' bytes; there is
always at least one segment. -/
def splitSlash : Str → List Str
  | [] => [[]]
  | c :: rest =>
    if c = '/' then [] :: splitSlash rest
    else
      match splitSlash rest with
      | [] => [[c]]
      | seg :: segs => (c :: seg) :: segs

/-- Go `token`. -/
structure token where
  tokens : List Str
  size : Nat
  deriving DecidableEq, Repr

/-- Go `pattern`. -/
structure pattern where
  Exist : Bool
  Id : Str
  Pos : Nat
  deriving DecidableEq, Repr

/-- Go `Route`, without the fields `name`, `err` and `parent`, which `NewRoute`, `save`,
`Match` and the trie do not read; the handler is of an arbitrary type `Hd`.  The trie
reads and writes `params` only (the argument `params` of `Node.addRoute`). -/
structure Route (Hd : Type) where
  Path : Str
  Size : Nat
  Token : token
  pattern : pattern
  handler : Hd
  Method : Str
  params : List Str

/-- Go `url.Values`: a map from a key to the list of its values. -/
abbrev Values := List (Str × List Str)

/-- Go `url.Values.Add`: append `value` to the values of `key`. -/
def Values.Add (v : Values) (key value : Str) : Values :=
  mapSet v key ((match mapGet v key with
    | none => []
    | some vs => vs) ++ [value])

/-- The loop of `Route.save` (lines 57-65) over the tokens from index `i` on. -/
def saveLoop : List Str → Nat → pattern → pattern
  | [], _, p => p
  | s :: rest, i, p =>
    if s.length ≥ 1 ∧ s.take 1 = [':'] then
      saveLoop rest (i + 1) { Exist := true, Id := s.drop 1, Pos := i }
    else saveLoop rest (i + 1) p

/-- Go `Route.save`. -/
def Route.save {Hd : Type} (r : Route Hd) : Route Hd :=
  { r with
    Token := { tokens := splitSlash r.Path, size := (splitSlash r.Path).length }
    pattern := saveLoop (splitSlash r.Path) 0 r.pattern
    Size := r.Path.length }

/-- Go `NewRoute`. -/
def NewRoute {Hd : Type} (url : Str) (h : Hd) : Route Hd :=
  Route.save
    { Path := url, Size := 0, Token := { tokens := [], size := 0 },
      pattern := { Exist := false, Id := [], Pos := 0 }, handler := h, Method := [],
      params := [] }

/-- Go `Route.Match`.  The slices `r.Path[:r.pattern.Pos]`, `path[:r.pattern.Pos]` and the
indexings of `ss` are within bounds for a route built by `NewRoute`. -/
def Route.Match {Hd : Type} (r : Route Hd) (path : Str) : Option Values × Bool :=
  let ss := splitSlash path
  if path.length ≥ r.Token.size ∧ r.Path.take r.pattern.Pos = path.take r.pattern.Pos then
    if ss.length = r.Token.size ∧ ss.getD (r.Token.size - 1) [] ≠ [] then
      (some (Values.Add [] r.pattern.Id (ss.getD r.pattern.Pos [])), true)
    else (none, false)
  else (none, false)

/-! ## The traversal, one call at a time

`traverseNode` is cut into its head, its three placeholder branches and its literal
branch; `visit` is the state of the callback after a traversal.  These definitions are
used to state and prove properties of `traverseNode`; the program does not use them. -/

/-- One placeholder branch of `traverseNode` (lines 329-350): nothing for a nil child,
else push, traverse the child with `path`, pop. -/
def traverseBranch {H σ : Type} (mf : findContext → Str → Str → Node H → σ → σ)
    (child : Option (Node H)) (name : Str) (value : Nat) (path : Str)
    (cs : findContext × σ) : findContext × σ :=
  match child with
  | none => cs
  | some ch =>
    ((traverseNode mf ch path (cs.1.pushParams name value) cs.2).1.popParams,
      (traverseNode mf ch path (cs.1.pushParams name value) cs.2).2)

/-- The literal branch of `traverseNode` (lines 352-362). -/
def traverseLiteral {H σ : Type} (mf : findContext → Str → Str → Node H → σ → σ)
    (n : Node H) (path : Str) (cs : findContext × σ) : findContext × σ :=
  if path.length < n.ChildrenKeyLen then cs
  else
    match n.Children with
    | none => cs
    | some m =>
      match mapGet m (path.take n.ChildrenKeyLen) with
      | none => cs
      | some child => traverseNode mf child (path.drop n.ChildrenKeyLen) cs.1 cs.2

/-- The call of `matchFunc` at the head of `traverseNode` (lines 321-323). -/
def traverseHead {H σ : Type} (mf : findContext → Str → Str → Node H → σ → σ)
    (n : Node H) (path : Str) (c : findContext) (s : σ) : σ :=
  if n.HttpMethodToRoute.isSome ∧ path = [] then mf c c.method path n s else s

/-- The state of the callback after `traverseNode`, the context being `c`. -/
def visit {H σ : Type} (mf : findContext → Str → Str → Node H → σ → σ) (c : findContext)
    (n : Node H) (path : Str) (s : σ) : σ :=
  (traverseNode mf n path c s).2

/-- The state after the traversal of a child that may be nil. -/
def visitOpt {H σ : Type} (mf : findContext → Str → Str → Node H → σ → σ) (c : findContext)
    (child : Option (Node H)) (path : Str) (s : σ) : σ :=
  match child with
  | none => s
  | some ch => visit mf c ch path s

/-- The child that the literal branch of `traverseNode` descends into. -/
def literalChild {H : Type} (n : Node H) (path : Str) : Option (Node H) :=
  if path.length < n.ChildrenKeyLen then none
  else
    match n.Children with
    | none => none
    | some m => mapGet m (path.take n.ChildrenKeyLen)

/-- A callback that records the route map of each node it is called on. -/
def recordTerminal {H : Type} (_c : findContext) (_httpMethod _path : Str) (node : Node H)
    (acc : List (Option (List (Str × Option H)))) : List (Option (List (Str × Option H))) :=
  acc ++ [node.HttpMethodToRoute]

/-- The route maps of the nodes on which `traverseNode` calls `matchFunc`, in order. -/
def terminals {H : Type} (n : Node H) (path : Str) : List (Option (List (Str × Option H))) :=
  (traverseNode recordTerminal n path (newFindContext [] path) []).2

/-! ## States of a node tree

Predicates on a node that are asked of every node of a tree. -/

/-- The entries of a literal map, none for a nil map. -/
def entriesOf {H : Type} (children : Option (List (Str × Node H))) : List (Str × Node H) :=
  match children with
  | none => []
  | some m => m

/-- The keys of a literal map, none for a nil map. -/
def keysOf {H : Type} (children : Option (List (Str × Node H))) : List Str :=
  match children with
  | none => []
  | some m => m.map Prod.fst

mutual
/-- The predicate `P` holds at every node of the tree. -/
def Node.all {H : Type} (P : Node H → Bool) : Node H → Bool
  | ⟨children, keyLen, paramChild, paramName, relaxedChild, relaxedName,
      splatChild, splatName, routes⟩ =>
    P ⟨children, keyLen, paramChild, paramName, relaxedChild, relaxedName,
      splatChild, splatName, routes⟩ &&
    (match children with
      | none => true
      | some m => Node.allChildren P m) &&
    (match paramChild with
      | none => true
      | some c => Node.all P c) &&
    (match relaxedChild with
      | none => true
      | some c => Node.all P c) &&
    (match splatChild with
      | none => true
      | some c => Node.all P c)
/-- The predicate `P` holds at every node below a literal map. -/
def Node.allChildren {H : Type} (P : Node H → Bool) : List (Str × Node H) → Bool
  | [] => true
  | (_, c) :: rest => Node.all P c && Node.allChildren P rest
end

/-- The keys of the literal map of the node have length 1, the key length recorded is 1
if there is a key, and the keys are pairwise distinct (the map is a Go map). -/
def uncompressedAt {H : Type} (n : Node H) : Bool :=
  (entriesOf n.Children).all (fun kv => kv.1.length == 1) &&
  ((entriesOf n.Children).isEmpty || n.ChildrenKeyLen == 1) &&
  decide ((entriesOf n.Children).map Prod.fst).Nodup

/-- A node tree in uncompressed form. -/
def isUncompressed {H : Type} (n : Node H) : Bool := Node.all uncompressedAt n

/-- The keys of the literal map of the node have the length recorded in the node. -/
def keyLenAt {H : Type} (n : Node H) : Bool :=
  (entriesOf n.Children).all (fun kv => kv.1.length == n.ChildrenKeyLen)

/-- The keys of the literal map of the node have length 1. -/
def keyLenOneAt {H : Type} (n : Node H) : Bool :=
  (entriesOf n.Children).all (fun kv => kv.1.length == 1)

/-- The state of a node as `AddRoute` leaves it: uncompressed, with the key length 1
recorded as soon as the literal map is not nil. -/
def insertedAt {H : Type} (n : Node H) : Bool :=
  uncompressedAt n && (n.Children.isNone || n.ChildrenKeyLen == 1)

/-- The state of a node during `compress`: the keys of its literal map are distinct and
have the recorded length, and if the map can still be merged the keys one level below
have length 1. -/
def mergeableAt {H : Type} (n : Node H) : Bool :=
  keyLenAt n && decide ((entriesOf n.Children).map Prod.fst).Nodup &&
  ((entriesOf n.Children).isEmpty || !canCompress (entriesOf n.Children) ||
    (entriesOf n.Children).all
      (fun kv => (entriesOf kv.2.Children).all (fun g => g.1.length == 1)))

/-- The node `n` with its three placeholder children compressed with fuel `f`, and with
the literal map and the key length given. -/
def compressStep {H : Type} (f : Nat) (n : Node H) (children : Option (List (Str × Node H)))
    (keyLen : Nat) : Node H :=
  ⟨children, keyLen, n.ParamChild.map (compressFuel f), n.ParamName,
    n.RelaxedChild.map (compressFuel f), n.RelaxedName,
    n.SplatChild.map (compressFuel f), n.SplatName, n.HttpMethodToRoute⟩

/-- What `canCompress` reads of a node. -/
def passThrough {H : Type} (n : Node H) : Bool :=
  !(n.HttpMethodToRoute.isSome || n.SplatChild.isSome ||
    n.ParamChild.isSome || n.RelaxedChild.isSome)

/-- The state of a node at which `compress` stops merging: no literal child, or a
literal child that `canCompress` refuses. -/
def stableAt {H : Type} (n : Node H) : Bool :=
  (entriesOf n.Children).isEmpty || !canCompress (entriesOf n.Children)

/-! ## Patterns, as the specification reads them (sections 3 and 4.2)

These definitions are used to state properties of `addRoute`; the program does not
use them. -/

/-- The placeholder names of a pattern, in order, as section 4.2 of the specification
reads a pattern. -/
def placeholderNamesLoop : Nat → Str → List Str
  | _, [] => []
  | 0, _ :: _ => []
  | fuel + 1, c :: rest =>
    if c = ':' then
      rest.take (splitParamIndex rest) ::
        placeholderNamesLoop fuel (rest.drop (splitParamIndex rest))
    else if c = '#' then
      rest.take (splitRelaxedIndex rest) ::
        placeholderNamesLoop fuel (rest.drop (splitRelaxedIndex rest))
    else if c = '*' then [rest]
    else placeholderNamesLoop fuel rest

/-- The placeholder names of a pattern; a pattern of `k` bytes has at most `k` tokens. -/
def placeholderNames (pattern : Str) : List Str := placeholderNamesLoop pattern.length pattern

/-- The byte that starts a named (`false`) or a relaxed (`true`) placeholder. -/
def placeholderSigil (relaxed : Bool) : Char := if relaxed then '#' else ':'

/-- The bytes that end the name of a named or relaxed placeholder. -/
def isTerminator (relaxed : Bool) (c : Char) : Bool := c == '/' || (!relaxed && c == '.')

/-- A pattern of literal bytes only. -/
def isLiteralPrefix (p : Str) : Bool := p.all fun c => c != ':' && c != '#' && c != '*'

/-- A placeholder name: no byte of it ends a name. -/
def isPlaceholderName (relaxed : Bool) (a : Str) : Bool := a.all fun c => !isTerminator relaxed c

/-- What may follow a placeholder name in a pattern: nothing, or a byte that ends it. -/
def isContinuation (relaxed : Bool) (r : Str) : Bool :=
  match r with
  | [] => true
  | c :: _ => isTerminator relaxed c

/-- The node reached from `n` along the one-byte literal keys of `p`. -/
def walkLiteral {H : Type} : Node H → Str → Option (Node H)
  | n, [] => some n
  | n, c :: rest =>
    match n.Children with
    | none => none
    | some m =>
      match mapGet m [c] with
      | none => none
      | some child => walkLiteral child rest

/-- The node has a named (resp. relaxed) child, recorded under the name `a`. -/
def hasPlaceholder {H : Type} (relaxed : Bool) (n : Node H) (a : Str) : Prop :=
  if relaxed then n.RelaxedChild.isSome = true ∧ n.RelaxedName = a
  else n.ParamChild.isSome = true ∧ n.ParamName = a

/-- What the specification asks of a span function with the terminators `term`: `i` is
the length of the longest prefix of `s` without a terminator. -/
def isLongestSpan (term : Char → Prop) (s : Str) (i : Nat) : Prop :=
  i ≤ s.length ∧ (∀ c ∈ s.take i, ¬ term c) ∧
  (i = s.length ∨ ∃ c, s[i]? = some c ∧ term c) ∧
  (∀ j, j ≤ s.length → (∀ c ∈ s.take j, ¬ term c) → j ≤ i)

/-- What the claim asks of an accepted path: as many segments as the url, and the same
segment wherever the segment of the url does not start with ':'. -/
def segmentsAgree (url path : Str) : Bool :=
  (splitSlash path).length == (splitSlash url).length &&
  (List.range (splitSlash url).length).all fun i =>
    ((splitSlash url).getD i []).take 1 == [':'] ||
      (splitSlash path).getD i [] == (splitSlash url).getD i []

/-- The pattern `p` describes the first `k` segments of `toks`: if it exists it names the
last of them that starts with ':' (position, and text after the ':'); if it does not
exist none of them starts with ':'. -/
def namesLastPlaceholder (toks : List Str) (k : Nat) (p : pattern) : Prop :=
  (p.Exist = true →
    p.Pos < k ∧ toks.getD p.Pos [] = ':' :: p.Id ∧
    ∀ j, p.Pos < j → j < k → (toks.getD j []).take 1 ≠ [':']) ∧
  (p.Exist = false → ∀ j, j < k → (toks.getD j []).take 1 ≠ [':'])

/-! ## Scenarios of the test suite (`trie_test.go`) -/

/-- The method "GET". -/
def GET : Str := "GET".toList

/-- The method "POST". -/
def POST : Str := "POST".toList

/-- A trie from `New()` after the given `AddRoute` calls under GET, errors dropped, the
handle of each pattern being the string given with it. -/
def trieOf (routes : List (String × String)) : Trie String :=
  (New : Trie String).AddRoutes (routes.map fun r => (GET, r.1.toList, some r.2))

/-- The registrations of `TestFindRouteMultipleMatches`. -/
def multipleMatchesRoutes : List (String × String) :=
  [("/r/1", "resource1"), ("/r/2", "resource2"), ("/r/:id", "resource_generic"),
   ("/s/*rest", "special_all"), ("/s/:param", "special_generic"),
   ("/s/#param", "special_relaxed"), ("/", "root")]

/-- The node tree of the pattern "/r/:id" with the terminal node carrying the handle
"resource" under GET, as the insertion of the test suite expects it; built by hand,
`AddRoute` does not produce it. -/
def namedTerminalMarked : Trie String :=
  { root :=
      { (Node.empty : Node String) with
        ChildrenKeyLen := 3
        Children := some [("/r/".toList,
          { (Node.empty : Node String) with
            ParamName := "id".toList
            ParamChild := some
              { (Node.empty : Node String) with
                HttpMethodToRoute := some [(GET, some "resource")] } })] } }

/-- The registrations of `TestTrieCompression`. -/
def compressionRoutes : List (String × String) := [("/abc", "3"), ("/adc", "3")]

/-- The node tree of "/r/:id" as `AddRoute` builds it, the terminal node carrying the
handle "resource" under GET by hand. -/
def namedTerminalMarkedUncompressed : Node String :=
  { (Node.empty : Node String) with
    ChildrenKeyLen := 1
    Children := some [("/".toList,
      { (Node.empty : Node String) with
        ChildrenKeyLen := 1
        Children := some [("r".toList,
          { (Node.empty : Node String) with
            ChildrenKeyLen := 1
            Children := some [("/".toList,
              { (Node.empty : Node String) with
                ParamName := "id".toList
                ParamChild := some
                  { (Node.empty : Node String) with
                    HttpMethodToRoute := some [(GET, some "resource")] } })] })] })] }

/-- The node of "/s/*rest" that has the splat child, the splat child carrying the handle
"special_all" under GET by hand. -/
def splatNodeMarked : Node String :=
  { (Node.empty : Node String) with
    SplatName := "rest".toList
    SplatChild := some
      { (Node.empty : Node String) with
        HttpMethodToRoute := some [(GET, some "special_all")] } }

/-- The node tree of "/s/*rest" after compression, with `splatNodeMarked` under "/s/". -/
def splatTerminalMarked : Trie String :=
  { root :=
      { (Node.empty : Node String) with
        ChildrenKeyLen := 3
        Children := some [("/s/".toList, splatNodeMarked)] } }

/-- A terminal node, carrying the handle "item" under GET by hand. -/
def markedTerminal : Node String :=
  { (Node.empty : Node String) with HttpMethodToRoute := some [(GET, some "item")] }

/-- The node tree of "/x" as `AddRoute` builds it, ending in `markedTerminal`. -/
def afterPlaceholder : Node String :=
  { (Node.empty : Node String) with
    ChildrenKeyLen := 1
    Children := some [("/".toList,
      { (Node.empty : Node String) with
        ChildrenKeyLen := 1
        Children := some [("x".toList, markedTerminal)] })] }

/-- A node with a placeholder child named "id", named (`relaxed = false`) or relaxed,
followed by `afterPlaceholder`. -/
def placeholderNode (relaxed : Bool) : Node String :=
  if relaxed then
    { (Node.empty : Node String) with
      RelaxedName := "id".toList, RelaxedChild := some afterPlaceholder }
  else
    { (Node.empty : Node String) with
      ParamName := "id".toList, ParamChild := some afterPlaceholder }

/-- The node tree of the pattern "/:id/x" (`relaxed = false`) or "/#id/x" as `AddRoute`
builds it, with its terminal node marked by hand. -/
def placeholderSegmentMarked (relaxed : Bool) : Trie String :=
  { root :=
      { (Node.empty : Node String) with
        ChildrenKeyLen := 1
        Children := some [("/".toList, placeholderNode relaxed)] } }

end Route

/-! # Theorems -/

namespace Route

/-! ## Lemmas on the maps and on the segment parser -/

theorem mapGet_mapSet_same {V : Type} (m : List (Str × V)) (k : Str) (v : V) :
    mapGet (mapSet m k v) k = some v := by
  induction m with
  | nil => simp [mapSet, mapGet]
  | cons kv rest ih =>
    obtain ⟨k0, v0⟩ := kv
    by_cases h : k0 = k
    · simp [mapSet, mapGet, h]
    · simp [mapSet, mapGet, h, ih]

theorem mapGet_mapSet_other {V : Type} (m : List (Str × V)) (k k2 : Str) (v : V)
    (hne : k ≠ k2) : mapGet (mapSet m k v) k2 = mapGet m k2 := by
  induction m with
  | nil => simp [mapSet, mapGet, hne]
  | cons kv rest ih =>
    obtain ⟨k0, v0⟩ := kv
    by_cases h : k0 = k
    · subst h
      simp [mapSet, mapGet, hne]
    · by_cases h2 : k0 = k2
      · subst h2
        simp [mapSet, mapGet, h]
      · simp [mapSet, mapGet, h, h2, ih]

theorem splitParamIndexLoop_name (a r : Str) (i : Nat)
    (ha : isPlaceholderName false a = true) (hr : isContinuation false r = true) :
    splitParamIndexLoop (a ++ r) i = i + a.length := by
  induction a generalizing i with
  | nil =>
    cases r with
    | nil => simp [splitParamIndexLoop]
    | cons c rest =>
      simp [isContinuation, isTerminator] at hr
      simp only [List.nil_append, splitParamIndexLoop, List.length_nil, Nat.add_zero]
      rcases hr with h | h <;> simp [h]
  | cons c rest ih =>
    simp [isPlaceholderName, isTerminator] at ha
    have hrest : isPlaceholderName false rest = true := by
      simp [isPlaceholderName, isTerminator]
      exact ha.2
    simp only [List.cons_append, splitParamIndexLoop, List.length_cons]
    simp [ha.1.1, ha.1.2, ih _ hrest]
    omega

theorem splitRelaxedIndexLoop_name (a r : Str) (i : Nat)
    (ha : isPlaceholderName true a = true) (hr : isContinuation true r = true) :
    splitRelaxedIndexLoop (a ++ r) i = i + a.length := by
  induction a generalizing i with
  | nil =>
    cases r with
    | nil => simp [splitRelaxedIndexLoop]
    | cons c rest =>
      simp [isContinuation, isTerminator] at hr
      simp [splitRelaxedIndexLoop, hr]
  | cons c rest ih =>
    simp [isPlaceholderName, isTerminator] at ha
    have hrest : isPlaceholderName true rest = true := by
      simp [isPlaceholderName, isTerminator]
      exact ha.2
    simp only [List.cons_append, splitRelaxedIndexLoop, List.length_cons]
    simp [ha.1, ih _ hrest]
    omega

theorem splitParam_name (a r : Str)
    (ha : isPlaceholderName false a = true) (hr : isContinuation false r = true) :
    splitParam (a ++ r) = (a, r) := by
  simp [splitParam, splitParamIndex, splitParamIndexLoop_name a r 0 ha hr]

theorem splitRelaxed_name (a r : Str)
    (ha : isPlaceholderName true a = true) (hr : isContinuation true r = true) :
    splitRelaxed (a ++ r) = (a, r) := by
  simp [splitRelaxed, splitRelaxedIndex, splitRelaxedIndexLoop_name a r 0 ha hr]

theorem indexLoop_nonneg_iff (sa : List Str) (s : Str) (idx : Nat) :
    0 ≤ IndexLoop sa s idx ↔ s ∈ sa := by
  induction sa generalizing idx with
  | nil => simp [IndexLoop]
  | cons x xs ih =>
    simp only [IndexLoop]
    by_cases h : x = s
    · simp [h]
    · simp [h, ih, Ne.symm h]

theorem contains_iff (sa : List Str) (s : Str) : Contains sa s = true ↔ s ∈ sa := by
  simp [Contains, Index, indexLoop_nonneg_iff]

theorem contains_nil (s : Str) : Contains [] s = false := by
  simp [Contains, Index, IndexLoop]

/-! ## Lemmas on `addRoute` -/

/-- The fuel of `addRouteLoop` is enough once it is the length of the pattern: the
result does not depend on it, so the branch that runs out of fuel is never taken by
`Node.addRoute`. -/
theorem addRouteLoop_fuel_irrelevant {H : Type} :
    ∀ (f g : Nat) (n : Node H) (p : Str) (ps : List Str),
      p.length ≤ f → p.length ≤ g → addRouteLoop f n p ps = addRouteLoop g n p ps := by
  intro f
  induction f with
  | zero =>
    intro g n p ps hf hg
    have hp : p = [] := List.length_eq_zero.mp (Nat.le_zero.mp hf)
    subst hp
    simp [addRouteLoop]
  | succ f ih =>
    intro g n p ps hf hg
    cases p with
    | nil => simp [addRouteLoop]
    | cons tok rem =>
      cases g with
      | zero => simp at hg
      | succ g =>
        have hf1 : rem.length ≤ f := by simpa using hf
        have hg1 : rem.length ≤ g := by simpa using hg
        have hd : ∀ i, (rem.drop i).length ≤ f := fun i => by
          rw [List.length_drop]; omega
        have hd2 : ∀ i, (rem.drop i).length ≤ g := fun i => by
          rw [List.length_drop]; omega
        simp only [addRouteLoop, splitParam, splitRelaxed]
        rw [ih g _ rem _ hf1 hg1]
        simp only [ih g _ _ _ (hd _) (hd2 _)]

theorem addRouteLoop_duplicate_name {H : Type} :
    ∀ (f : Nat) (n : Node H) (p : Str) (ps : List Str),
      p.length ≤ f → ps.Nodup → ¬ (ps ++ placeholderNamesLoop f p).Nodup →
      (addRouteLoop f n p ps).2 ≠ none := by
  intro f
  induction f with
  | zero =>
    intro n p ps hf hps hdup
    have hp : p = [] := List.length_eq_zero.mp (Nat.le_zero.mp hf)
    subst hp
    simp [placeholderNamesLoop, hps] at hdup
  | succ f ih =>
    intro n p ps hf hps hdup
    cases p with
    | nil => simp [placeholderNamesLoop, hps] at hdup
    | cons tok rem =>
      have hd : ∀ i, (rem.drop i).length ≤ f := fun i => by
        rw [List.length_drop]; simp at hf; omega
      have hsnoc : ∀ name : Str, ¬ name ∈ ps → (ps ++ [name]).Nodup := fun name hn => by
        rw [List.nodup_append]
        refine ⟨hps, List.nodup_singleton _, ?_⟩
        intro x hx hx2
        simp at hx2
        exact hn (hx2 ▸ hx)
      simp only [placeholderNamesLoop] at hdup
      simp only [addRouteLoop, splitParam, splitRelaxed]
      by_cases h1 : tok = ':'
      · simp only [h1, if_true] at hdup ⊢
        by_cases hc : Contains ps (rem.take (splitParamIndex rem)) = true
        · simp [hc]
        · have hn : ¬ rem.take (splitParamIndex rem) ∈ ps := fun hm => hc ((contains_iff _ _).2 hm)
          have hdup2 : ¬ ((ps ++ [rem.take (splitParamIndex rem)]) ++
              placeholderNamesLoop f (rem.drop (splitParamIndex rem))).Nodup := by
            simpa using hdup
          simp only [hc]
          cases hpc : n.ParamChild with
          | none => exact ih _ _ _ (hd _) (hsnoc _ hn) hdup2
          | some child =>
            by_cases hne : n.ParamName = rem.take (splitParamIndex rem)
            · simpa [hne] using ih child _ _ (hd _) (hsnoc _ hn) hdup2
            · simp [hne]
      · by_cases h2 : tok = '#'
        · have h21 : ¬ ('#' = ':') := by decide
          simp only [h2, h21, if_true, if_false] at hdup ⊢
          by_cases hc : Contains ps (rem.take (splitRelaxedIndex rem)) = true
          · simp [hc]
          · have hn : ¬ rem.take (splitRelaxedIndex rem) ∈ ps :=
              fun hm => hc ((contains_iff _ _).2 hm)
            have hdup2 : ¬ ((ps ++ [rem.take (splitRelaxedIndex rem)]) ++
                placeholderNamesLoop f (rem.drop (splitRelaxedIndex rem))).Nodup := by
              simpa using hdup
            simp only [hc]
            cases hpc : n.RelaxedChild with
            | none => exact ih _ _ _ (hd _) (hsnoc _ hn) hdup2
            | some child =>
              by_cases hne : n.RelaxedName = rem.take (splitRelaxedIndex rem)
              · simpa [hne] using ih child _ _ (hd _) (hsnoc _ hn) hdup2
              · simp [hne]
        · by_cases h3 : tok = '*'
          · have h31 : ¬ ('*' = ':') := by decide
            have h32 : ¬ ('*' = '#') := by decide
            simp only [h3, h31, h32, if_true, if_false] at hdup ⊢
            have hmem : rem ∈ ps := by
              by_contra hn
              exact hdup (hsnoc _ hn)
            simp [(contains_iff _ _).2 hmem]
          · simp only [h1, h2, h3, if_false] at hdup ⊢
            exact ih _ _ _ (by simpa using hf) hps hdup

theorem addRouteLoop_hasPlaceholder {H : Type} (relaxed : Bool) (a : Str) (f : Nat)
    (n : Node H) (q : Str) (ps : List Str) (h : hasPlaceholder relaxed n a) :
    hasPlaceholder relaxed (addRouteLoop f n q ps).1 a := by
  cases q with
  | nil => simpa [addRouteLoop] using h
  | cons tok rem =>
    cases f with
    | zero => simpa [addRouteLoop] using h
    | succ f =>
      simp only [addRouteLoop]
      cases relaxed <;> simp only [hasPlaceholder] at h ⊢ <;>
        (repeat' split) <;> simp_all

theorem addRouteLoop_children_placeholder {H : Type} (f : Nat) (n : Node H) (tok : Char)
    (rem : Str) (ps : List Str) (htok : tok = ':' ∨ tok = '#' ∨ tok = '*') :
    (addRouteLoop f n (tok :: rem) ps).1.Children = n.Children := by
  cases f with
  | zero => simp [addRouteLoop]
  | succ f =>
    simp only [addRouteLoop]
    rcases htok with h | h | h <;> subst h <;> (repeat' split) <;> simp_all

theorem addRouteLoop_walkLiteral {H : Type} (relaxed : Bool) (a : Str) :
    ∀ (p : Str) (n x : Node H) (f : Nat) (q : Str) (ps : List Str),
      walkLiteral n p = some x → hasPlaceholder relaxed x a →
      ∃ y, walkLiteral (addRouteLoop f n q ps).1 p = some y ∧ hasPlaceholder relaxed y a := by
  intro p
  induction p with
  | nil =>
    intro n x f q ps hw hx
    simp only [walkLiteral, Option.some.injEq] at hw
    subst hw
    exact ⟨_, rfl, addRouteLoop_hasPlaceholder relaxed a f n q ps hx⟩
  | cons c p ih =>
    intro n x f q ps hw hx
    cases q with
    | nil => exact ⟨x, by simpa [addRouteLoop] using hw, hx⟩
    | cons tok rem =>
      cases f with
      | zero => exact ⟨x, by simpa [addRouteLoop] using hw, hx⟩
      | succ f =>
        by_cases htok : tok = ':' ∨ tok = '#' ∨ tok = '*'
        · refine ⟨x, ?_, hx⟩
          simp only [walkLiteral, addRouteLoop_children_placeholder _ _ _ _ _ htok]
          simpa [walkLiteral] using hw
        · simp only [not_or] at htok
          obtain ⟨h1, h2, h3⟩ := htok
          simp only [walkLiteral] at hw
          cases hch : n.Children with
          | none => simp [hch] at hw
          | some m =>
            simp only [hch] at hw
            cases hget : mapGet m [c] with
            | none => simp [hget] at hw
            | some child =>
              simp only [hget] at hw
              simp only [addRouteLoop, h1, h2, h3, if_false, hch, walkLiteral]
              by_cases hc : tok = c
              · subst hc
                simp only [mapGet_mapSet_same, hget]
                exact ih child x f rem ps hw hx
              · have hne : [tok] ≠ [c] := by simpa using hc
                simp only [mapGet_mapSet_other _ _ _ _ hne, hget]
                exact ⟨x, hw, hx⟩

theorem addRouteLoop_registers_placeholder {H : Type} (relaxed : Bool) (a r : Str)
    (ha : isPlaceholderName relaxed a = true) (hr : isContinuation relaxed r = true) :
    ∀ (p : Str) (n : Node H) (f : Nat), isLiteralPrefix p = true → p.length < f →
      (addRouteLoop f n (p ++ placeholderSigil relaxed :: (a ++ r)) []).2 = none →
      ∃ y, walkLiteral (addRouteLoop f n (p ++ placeholderSigil relaxed :: (a ++ r)) []).1 p
          = some y ∧ hasPlaceholder relaxed y a := by
  intro p
  induction p with
  | nil =>
    intro n f _ hf
    obtain ⟨f, rfl⟩ : ∃ g, f = g + 1 := ⟨f - 1, by simp at hf; omega⟩
    cases relaxed
    · simp only [List.nil_append, placeholderSigil, addRouteLoop, splitParam_name a r ha hr,
        contains_nil, walkLiteral, hasPlaceholder]
      cases hpc : n.ParamChild with
      | none => simp
      | some child =>
        by_cases hne : n.ParamName = a
        · simp [hne, hpc]
        · simp [hne]
    · simp only [List.nil_append, placeholderSigil, addRouteLoop, splitRelaxed_name a r ha hr,
        contains_nil, walkLiteral, hasPlaceholder]
      cases hpc : n.RelaxedChild with
      | none => simp
      | some child =>
        by_cases hne : n.RelaxedName = a
        · simp [hne, hpc]
        · simp [hne]
  | cons c p ih =>
    intro n f hp hf
    obtain ⟨f, rfl⟩ : ∃ g, f = g + 1 := ⟨f - 1, by simp at hf; omega⟩
    simp [isLiteralPrefix] at hp
    obtain ⟨⟨⟨h1, h2⟩, h3⟩, hp2⟩ := hp
    have hp3 : isLiteralPrefix p = true := by simpa [isLiteralPrefix] using hp2
    have hf2 : p.length < f := by simpa using hf
    simp only [List.cons_append, addRouteLoop, h1, h2, h3, if_false, walkLiteral,
      mapGet_mapSet_same]
    exact ih _ f hp3 hf2

theorem addRouteLoop_rejects_other_name {H : Type} (relaxed : Bool) (a b r : Str)
    (hab : a ≠ b) (hb : isPlaceholderName relaxed b = true)
    (hr : isContinuation relaxed r = true) :
    ∀ (p : Str) (n x : Node H) (f : Nat), isLiteralPrefix p = true → p.length < f →
      walkLiteral n p = some x → hasPlaceholder relaxed x a →
      (addRouteLoop f n (p ++ placeholderSigil relaxed :: (b ++ r)) []).2 ≠ none := by
  intro p
  induction p with
  | nil =>
    intro n x f _ hf hw hx
    obtain ⟨f, rfl⟩ : ∃ g, f = g + 1 := ⟨f - 1, by simp at hf; omega⟩
    simp only [walkLiteral, Option.some.injEq] at hw
    subst hw
    cases relaxed
    · simp only [hasPlaceholder, Bool.false_eq_true, if_false] at hx
      obtain ⟨hsome, hname⟩ := hx
      obtain ⟨child, hchild⟩ := Option.isSome_iff_exists.mp hsome
      simp [placeholderSigil, addRouteLoop, splitParam_name b r hb hr, contains_nil, hchild,
        hname, hab]
    · simp only [hasPlaceholder, if_true] at hx
      obtain ⟨hsome, hname⟩ := hx
      obtain ⟨child, hchild⟩ := Option.isSome_iff_exists.mp hsome
      simp [placeholderSigil, addRouteLoop, splitRelaxed_name b r hb hr, contains_nil, hchild,
        hname, hab]
  | cons c p ih =>
    intro n x f hp hf hw hx
    obtain ⟨f, rfl⟩ : ∃ g, f = g + 1 := ⟨f - 1, by simp at hf; omega⟩
    simp [isLiteralPrefix] at hp
    obtain ⟨⟨⟨h1, h2⟩, h3⟩, hp2⟩ := hp
    have hp3 : isLiteralPrefix p = true := by simpa [isLiteralPrefix] using hp2
    have hf2 : p.length < f := by simpa using hf
    simp only [walkLiteral] at hw
    cases hch : n.Children with
    | none => simp [hch] at hw
    | some m =>
      simp only [hch] at hw
      cases hget : mapGet m [c] with
      | none => simp [hget] at hw
      | some child =>
        simp only [hget] at hw
        simp only [List.cons_append, addRouteLoop, h1, h2, h3, if_false, hch, hget]
        exact ih child x f hp3 hf2 hw hx

/-! ## Lemmas on `compress` -/

theorem size_eq {H : Type} (n : Node H) :
    n.size = 1 + sizeOfChildren n.Children + sizeOfChild n.ParamChild
      + sizeOfChild n.RelaxedChild + sizeOfChild n.SplatChild := by
  obtain ⟨children, keyLen, pc, pn, rc, rn, sc, sn, routes⟩ := n
  cases children <;> cases pc <;> cases rc <;> cases sc <;> rfl

theorem size_pos {H : Type} (n : Node H) : 0 < n.size := by
  rw [size_eq]
  omega

theorem sizeChildren_nil {H : Type} : Node.sizeChildren ([] : List (Str × Node H)) = 0 := by
  rfl

theorem sizeChildren_cons {H : Type} (kv : Str × Node H) (rest : List (Str × Node H)) :
    Node.sizeChildren (kv :: rest) = kv.2.size + Node.sizeChildren rest := by
  obtain ⟨k, v⟩ := kv
  rfl

theorem sizeChildren_mapSet_le {H : Type} (m : List (Str × Node H)) (k : Str) (v : Node H) :
    Node.sizeChildren (mapSet m k v) ≤ Node.sizeChildren m + v.size := by
  induction m with
  | nil => simp [mapSet, sizeChildren_cons, sizeChildren_nil]
  | cons kv rest ih =>
    obtain ⟨k0, v0⟩ := kv
    by_cases h : k0 = k
    · simp only [mapSet, h, if_true, sizeChildren_cons]
      omega
    · simp only [mapSet, h, if_false, sizeChildren_cons]
      omega

theorem sizeChildren_mergeGrandChildren_le {H : Type} (key : Str)
    (gd : Option (List (Str × Node H))) (merged : List (Str × Node H)) :
    Node.sizeChildren (mergeGrandChildren key gd merged) ≤
      Node.sizeChildren merged + sizeOfChildren gd := by
  cases gd with
  | none => simp [mergeGrandChildren, sizeOfChildren]
  | some m =>
    simp only [mergeGrandChildren, sizeOfChildren]
    induction m generalizing merged with
    | nil => simp [sizeChildren_nil]
    | cons kv rest ih =>
      simp only [List.foldl_cons, sizeChildren_cons]
      have h1 := ih (mapSet merged (key ++ kv.1) kv.2)
      have h2 := sizeChildren_mapSet_le merged (key ++ kv.1) kv.2
      omega

theorem sizeChildren_foldl_merge_le {H : Type} (m acc : List (Str × Node H)) :
    Node.sizeChildren (m.foldl
      (fun (merged : List (Str × Node H)) kv => mergeGrandChildren kv.1 kv.2.Children merged)
      acc) + m.length ≤ Node.sizeChildren acc + Node.sizeChildren m := by
  induction m generalizing acc with
  | nil => simp [sizeChildren_nil]
  | cons kv rest ih =>
    simp only [List.foldl_cons, sizeChildren_cons, List.length_cons]
    have h1 := ih (mergeGrandChildren kv.1 kv.2.Children acc)
    have h2 := sizeChildren_mergeGrandChildren_le kv.1 kv.2.Children acc
    have h3 := size_eq kv.2
    omega

theorem sizeChildren_mergeChildren_le {H : Type} (m : List (Str × Node H)) :
    Node.sizeChildren (mergeChildren m) + m.length ≤ Node.sizeChildren m := by
  have h := sizeChildren_foldl_merge_le m []
  simpa [mergeChildren, sizeChildren_nil] using h

theorem size_le_sizeChildren {H : Type} (m : List (Str × Node H)) (kv : Str × Node H)
    (h : kv ∈ m) : kv.2.size ≤ Node.sizeChildren m := by
  induction m with
  | nil => simp at h
  | cons x rest ih =>
    rw [sizeChildren_cons]
    rcases List.mem_cons.mp h with h1 | h1
    · subst h1
      omega
    · have := ih h1
      omega

theorem sizeOfChild_map_le {H : Type} (g : Node H → Node H)
    (hg : ∀ n, (g n).size ≤ n.size) (c : Option (Node H)) :
    sizeOfChild (c.map g) ≤ sizeOfChild c := by
  cases c <;> simp [sizeOfChild, hg]

theorem sizeChildren_map_le {H : Type} (g : Node H → Node H)
    (hg : ∀ n, (g n).size ≤ n.size) (m : List (Str × Node H)) :
    Node.sizeChildren (m.map fun kv => (kv.1, g kv.2)) ≤ Node.sizeChildren m := by
  induction m with
  | nil => simp
  | cons kv rest ih =>
    simp only [List.map_cons, sizeChildren_cons]
    have := hg kv.2
    omega

theorem size_compressFuel_le {H : Type} :
    ∀ (f : Nat) (n : Node H), (compressFuel f n).size ≤ n.size := by
  intro f
  induction f with
  | zero =>
    intro n
    simp [compressFuel]
  | succ f ih =>
    intro n
    obtain ⟨children, keyLen, pc, pn, rc, rn, sc, sn, routes⟩ := n
    have hpc := sizeOfChild_map_le (compressFuel f) ih pc
    have hrc := sizeOfChild_map_le (compressFuel f) ih rc
    have hsc := sizeOfChild_map_le (compressFuel f) ih sc
    simp only [compressFuel]
    cases children with
    | none =>
      simp only [size_eq, sizeOfChildren]
      omega
    | some m =>
      simp only []
      split_ifs with h1 h2
      · simp only [size_eq, sizeOfChildren]
        omega
      · refine le_trans (ih _) ?_
        simp only [size_eq, sizeOfChildren]
        have := sizeChildren_mergeChildren_le m
        omega
      · simp only [size_eq, sizeOfChildren]
        have := sizeChildren_map_le (compressFuel f) ih m
        omega

/-- The fuel of `compressFuel` is enough once it is the number of nodes: the result
does not depend on it, so `Node.compress` never takes the branch without fuel. -/
theorem compressFuel_fuel_irrelevant {H : Type} :
    ∀ (f g : Nat) (n : Node H), n.size ≤ f → n.size ≤ g →
      compressFuel f n = compressFuel g n := by
  intro f
  induction f with
  | zero =>
    intro g n hf
    have := size_pos n
    omega
  | succ f ih =>
    intro g n hf hg
    cases g with
    | zero =>
      have := size_pos n
      omega
    | succ g =>
      obtain ⟨children, keyLen, pc, pn, rc, rn, sc, sn, routes⟩ := n
      simp only [size_eq] at hf hg
      have hopt : ∀ c : Option (Node H), sizeOfChild c ≤ f → sizeOfChild c ≤ g →
          c.map (compressFuel f) = c.map (compressFuel g) := by
        intro c h1 h2
        cases c with
        | none => rfl
        | some x => simp [ih g x (by simpa [sizeOfChild] using h1)
            (by simpa [sizeOfChild] using h2)]
      have epc := hopt pc (by omega) (by omega)
      have erc := hopt rc (by omega) (by omega)
      have esc := hopt sc (by omega) (by omega)
      have hpc := sizeOfChild_map_le (compressFuel g) (size_compressFuel_le g) pc
      have hrc := sizeOfChild_map_le (compressFuel g) (size_compressFuel_le g) rc
      have hsc := sizeOfChild_map_le (compressFuel g) (size_compressFuel_le g) sc
      simp only [compressFuel, epc, erc, esc]
      cases children with
      | none => rfl
      | some m =>
        simp only [sizeOfChildren] at hf hg
        simp only []
        split_ifs with h1 h2
        · rfl
        · have hm := sizeChildren_mergeChildren_le m
          have hlen : 0 < m.length := Nat.pos_of_ne_zero h1
          apply ih
          · simp only [size_eq, sizeOfChildren]
            omega
          · simp only [size_eq, sizeOfChildren]
            omega
        · have hmap : (m.map fun kv => (kv.1, compressFuel f kv.2)) =
              (m.map fun kv => (kv.1, compressFuel g kv.2)) := by
            apply List.map_congr_left
            intro kv hkv
            have := size_le_sizeChildren m kv hkv
            rw [ih g kv.2 (by omega) (by omega)]
          rw [hmap]

theorem compress_eq_of_fuel {H : Type} (n : Node H) (f : Nat) (hf : n.size ≤ f) :
    compressFuel f n = n.compress :=
  compressFuel_fuel_irrelevant f n.size n hf (Nat.le_refl _)

/-! ## Lemmas on sequences of `AddRoute` calls -/

theorem addRoutes_walkLiteral {H : Type} (relaxed : Bool) (a p : Str) :
    ∀ (calls : List (Str × Str × Option H)) (t : Trie H) (x : Node H),
      walkLiteral t.root p = some x → hasPlaceholder relaxed x a →
      ∃ y, walkLiteral (t.AddRoutes calls).root p = some y ∧ hasPlaceholder relaxed y a := by
  intro calls
  induction calls with
  | nil =>
    intro t x hw hx
    exact ⟨x, hw, hx⟩
  | cons call rest ih =>
    intro t x hw hx
    obtain ⟨y, hy, hy2⟩ :=
      addRouteLoop_walkLiteral relaxed a p t.root x call.2.1.length call.2.1 [] hw hx
    exact ih (t.AddRoute call.1 call.2.1 call.2.2).1 y hy hy2

/-! ## Lemmas on the segment parser -/

theorem splitParamIndexLoop_shift (s : Str) (i : Nat) :
    splitParamIndexLoop s i = i + splitParamIndexLoop s 0 := by
  induction s generalizing i with
  | nil => simp [splitParamIndexLoop]
  | cons c rest ih =>
    simp only [splitParamIndexLoop]
    split_ifs
    · rw [ih (i + 1), ih (0 + 1)]
      omega
    · rfl

theorem splitRelaxedIndexLoop_shift (s : Str) (i : Nat) :
    splitRelaxedIndexLoop s i = i + splitRelaxedIndexLoop s 0 := by
  induction s generalizing i with
  | nil => simp [splitRelaxedIndexLoop]
  | cons c rest ih =>
    simp only [splitRelaxedIndexLoop]
    split_ifs
    · rw [ih (i + 1), ih (0 + 1)]
      omega
    · rfl

theorem splitParamIndex_cons (c : Char) (rest : Str) :
    splitParamIndex (c :: rest) =
      if c ≠ '/' ∧ c ≠ '.' then splitParamIndex rest + 1 else 0 := by
  simp only [splitParamIndex, splitParamIndexLoop]
  split_ifs
  · rw [splitParamIndexLoop_shift rest (0 + 1)]
    omega
  · rfl

theorem splitRelaxedIndex_cons (c : Char) (rest : Str) :
    splitRelaxedIndex (c :: rest) = if c ≠ '/' then splitRelaxedIndex rest + 1 else 0 := by
  simp only [splitRelaxedIndex, splitRelaxedIndexLoop]
  split_ifs
  · rw [splitRelaxedIndexLoop_shift rest (0 + 1)]
    omega
  · rfl

theorem splitParamIndex_longest (s : Str) :
    isLongestSpan (fun c => c = '/' ∨ c = '.') s (splitParamIndex s) := by
  induction s with
  | nil => simp [isLongestSpan, splitParamIndex, splitParamIndexLoop]
  | cons c rest ih =>
    obtain ⟨h1, h2, h3, h4⟩ := ih
    rw [splitParamIndex_cons]
    by_cases hc : c ≠ '/' ∧ c ≠ '.'
    · rw [if_pos hc]
      refine ⟨by simpa using h1, ?_, ?_, ?_⟩
      · intro x hx
        simp only [List.take_succ_cons, List.mem_cons] at hx
        rcases hx with hx | hx
        · subst hx
          simpa [not_or] using hc
        · exact h2 x hx
      · rcases h3 with h3 | h3
        · left
          simp [h3]
        · right
          simpa using h3
      · intro j hj hall
        cases j with
        | zero => omega
        | succ j =>
          have := h4 j (by simpa using hj) (fun x hx => hall x (by simp [hx]))
          omega
    · rw [if_neg hc]
      refine ⟨by simp, by simp, ?_, ?_⟩
      · right
        refine ⟨c, by simp, ?_⟩
        by_contra hn
        simp only [not_or] at hn
        exact hc hn
      · intro j hj hall
        cases j with
        | zero => omega
        | succ j =>
          exfalso
          have := hall c (by simp)
          simp only [not_or] at this
          exact hc this

theorem splitRelaxedIndex_longest (s : Str) :
    isLongestSpan (fun c => c = '/') s (splitRelaxedIndex s) := by
  induction s with
  | nil => simp [isLongestSpan, splitRelaxedIndex, splitRelaxedIndexLoop]
  | cons c rest ih =>
    obtain ⟨h1, h2, h3, h4⟩ := ih
    rw [splitRelaxedIndex_cons]
    by_cases hc : c ≠ '/'
    · rw [if_pos hc]
      refine ⟨by simpa using h1, ?_, ?_, ?_⟩
      · intro x hx
        simp only [List.take_succ_cons, List.mem_cons] at hx
        rcases hx with hx | hx
        · subst hx
          exact hc
        · exact h2 x hx
      · rcases h3 with h3 | h3
        · left
          simp [h3]
        · right
          simpa using h3
      · intro j hj hall
        cases j with
        | zero => omega
        | succ j =>
          have := h4 j (by simpa using hj) (fun x hx => hall x (by simp [hx]))
          omega
    · rw [if_neg hc]
      refine ⟨by simp, by simp, ?_, ?_⟩
      · right
        exact ⟨c, by simp, by simpa using hc⟩
      · intro j hj hall
        cases j with
        | zero => omega
        | succ j =>
          exfalso
          exact hc (hall c (by simp))

/-! ## Lemmas on the traversal -/

theorem traverseChildren_nil {H σ : Type} (mf : findContext → Str → Str → Node H → σ → σ)
    (token remaining : Str) (c : findContext) (s : σ) :
    traverseChildren mf [] token remaining c s = (c, s) := by
  rfl

theorem traverseChildren_cons {H σ : Type} (mf : findContext → Str → Str → Node H → σ → σ)
    (kv : Str × Node H) (rest : List (Str × Node H)) (token remaining : Str)
    (c : findContext) (s : σ) :
    traverseChildren mf (kv :: rest) token remaining c s =
      if kv.1 = token then traverseNode mf kv.2 remaining c s
      else traverseChildren mf rest token remaining c s := by
  obtain ⟨k, v⟩ := kv
  rfl

theorem traverseChildren_eq {H σ : Type} (mf : findContext → Str → Str → Node H → σ → σ)
    (m : List (Str × Node H)) (token remaining : Str) (c : findContext) (s : σ) :
    traverseChildren mf m token remaining c s =
      match mapGet m token with
      | none => (c, s)
      | some child => traverseNode mf child remaining c s := by
  induction m with
  | nil => simp [traverseChildren_nil, mapGet]
  | cons kv rest ih =>
    obtain ⟨k, v⟩ := kv
    rw [traverseChildren_cons]
    by_cases h : k = token
    · simp [mapGet, h]
    · simp [mapGet, h, ih]

theorem traverseNode_eq {H σ : Type} (mf : findContext → Str → Str → Node H → σ → σ)
    (n : Node H) (path : Str) (c : findContext) (s : σ) :
    traverseNode mf n path c s =
      if path.length = 0 then (c, traverseHead mf n path c s)
      else
        traverseLiteral mf n path
          (traverseBranch mf n.RelaxedChild n.RelaxedName (splitRelaxedIndex path)
            (path.drop (splitRelaxedIndex path))
            (traverseBranch mf n.ParamChild n.ParamName (splitParamIndex path)
              (path.drop (splitParamIndex path))
              (traverseBranch mf n.SplatChild n.SplatName path.length []
                (c, traverseHead mf n path c s)))) := by
  obtain ⟨children, keyLen, pc, pn, rc, rn, sc, sn, routes⟩ := n
  simp only [traverseLiteral, ← traverseChildren_eq]
  cases children <;> cases pc <;> cases rc <;> cases sc <;> rfl

theorem mapGet_mem {V : Type} (m : List (Str × V)) (k : Str) (v : V)
    (h : mapGet m k = some v) : (k, v) ∈ m := by
  induction m with
  | nil => simp [mapGet] at h
  | cons kv rest ih =>
    obtain ⟨k0, v0⟩ := kv
    by_cases hk : k0 = k
    · simp only [mapGet, hk, if_true, Option.some.injEq] at h
      simp [hk, h]
    · simp only [mapGet, hk, if_false] at h
      exact List.mem_cons_of_mem _ (ih h)

/-- Induction over a node tree: a property holds of every node once it holds of a node
whenever it holds of its literal children and its three placeholder children. -/
theorem Node.induct {H : Type} {P : Node H → Prop}
    (step : ∀ n : Node H,
      (∀ m, n.Children = some m → ∀ kv ∈ m, P kv.2) →
      (∀ child, n.ParamChild = some child → P child) →
      (∀ child, n.RelaxedChild = some child → P child) →
      (∀ child, n.SplatChild = some child → P child) → P n) :
    ∀ n, P n := by
  have key : ∀ (k : Nat) (n : Node H), n.size ≤ k → P n := by
    intro k
    induction k with
    | zero =>
      intro n hn
      have := size_pos n
      omega
    | succ k ih =>
      intro n hn
      rw [size_eq] at hn
      apply step
      · intro m hm kv hkv
        apply ih
        have := size_le_sizeChildren m kv hkv
        simp only [hm, sizeOfChildren] at hn
        omega
      · intro child hc
        apply ih
        simp only [hc, sizeOfChild] at hn
        omega
      · intro child hc
        apply ih
        simp only [hc, sizeOfChild] at hn
        omega
      · intro child hc
        apply ih
        simp only [hc, sizeOfChild] at hn
        omega
  exact fun n => key n.size n (Nat.le_refl _)

theorem pushParams_eq (fc : findContext) (name : Str) (value : Nat) :
    fc.pushParams name value = fc := by
  cases fc
  simp [findContext.pushParams]

theorem popParams_eq (fc : findContext) : fc.popParams = fc := rfl

/-- The context is the same after a traversal: every push is undone. -/
theorem traverseNode_context {H σ : Type} (mf : findContext → Str → Str → Node H → σ → σ) :
    ∀ (n : Node H) (path : Str) (c : findContext) (s : σ),
      (traverseNode mf n path c s).1 = c := by
  intro n
  induction n using Node.induct with
  | step n hch hpc hrc hsc =>
    intro path c s
    have hb : ∀ (oc : Option (Node H)) (name : Str) (value : Nat) (p : Str)
        (cs : findContext × σ),
        (∀ child, oc = some child → ∀ (path : Str) (c : findContext) (s : σ),
          (traverseNode mf child path c s).1 = c) →
        (traverseBranch mf oc name value p cs).1 = cs.1 := by
      intro oc name value p cs ih
      cases oc with
      | none => rfl
      | some ch => simp [traverseBranch, ih ch rfl, pushParams_eq, popParams_eq]
    rw [traverseNode_eq]
    split_ifs with h0
    · rfl
    · have h3 := fun cs => hb n.SplatChild n.SplatName path.length [] cs hsc
      have h2 := fun cs => hb n.ParamChild n.ParamName (splitParamIndex path)
        (path.drop (splitParamIndex path)) cs hpc
      have h1 := fun cs => hb n.RelaxedChild n.RelaxedName (splitRelaxedIndex path)
        (path.drop (splitRelaxedIndex path)) cs hrc
      simp only [traverseLiteral]
      split_ifs
      · rw [h1, h2, h3]
      · cases hC : n.Children with
        | none => simp only []; rw [h1, h2, h3]
        | some m =>
          simp only []
          cases hG : mapGet m (path.take n.ChildrenKeyLen) with
          | none => simp only []; rw [h1, h2, h3]
          | some child =>
            simp only []
            rw [hch m hC _ (mapGet_mem _ _ _ hG), h1, h2, h3]

theorem traverseNode_eq_visit {H σ : Type} (mf : findContext → Str → Str → Node H → σ → σ)
    (n : Node H) (path : Str) (c : findContext) (s : σ) :
    traverseNode mf n path c s = (c, visit mf c n path s) :=
  Prod.ext (traverseNode_context mf n path c s) rfl

theorem traverseBranch_eq {H σ : Type} (mf : findContext → Str → Str → Node H → σ → σ)
    (oc : Option (Node H)) (name : Str) (value : Nat) (p : Str) (cs : findContext × σ) :
    traverseBranch mf oc name value p cs = (cs.1, visitOpt mf cs.1 oc p cs.2) := by
  cases oc with
  | none => rfl
  | some ch =>
    simp [traverseBranch, visitOpt, traverseNode_eq_visit, pushParams_eq, popParams_eq]

theorem traverseLiteral_eq {H σ : Type} (mf : findContext → Str → Str → Node H → σ → σ)
    (n : Node H) (path : Str) (cs : findContext × σ) :
    traverseLiteral mf n path cs =
      (cs.1, visitOpt mf cs.1 (literalChild n path) (path.drop n.ChildrenKeyLen) cs.2) := by
  simp only [traverseLiteral, literalChild]
  split_ifs
  · rfl
  · cases n.Children with
    | none => rfl
    | some m =>
      simp only []
      cases mapGet m (path.take n.ChildrenKeyLen) with
      | none => rfl
      | some child => simp [visitOpt, traverseNode_eq_visit]

/-- The traversal, as a function of the state of the callback. -/
theorem visit_eq {H σ : Type} (mf : findContext → Str → Str → Node H → σ → σ)
    (c : findContext) (n : Node H) (path : Str) (s : σ) :
    visit mf c n path s =
      if path = [] then traverseHead mf n path c s
      else
        visitOpt mf c (literalChild n path) (path.drop n.ChildrenKeyLen)
          (visitOpt mf c n.RelaxedChild (path.drop (splitRelaxedIndex path))
            (visitOpt mf c n.ParamChild (path.drop (splitParamIndex path))
              (visitOpt mf c n.SplatChild [] (traverseHead mf n path c s)))) := by
  rw [visit, traverseNode_eq]
  by_cases h : path = []
  · simp [h]
  · have h0 : ¬ path.length = 0 := fun h1 => h (List.length_eq_zero.mp h1)
    simp only [h0, h, if_false, traverseLiteral_eq, traverseBranch_eq]

theorem visit_nil {H σ : Type} (mf : findContext → Str → Str → Node H → σ → σ)
    (c : findContext) (n : Node H) (s : σ) :
    visit mf c n [] s = if n.HttpMethodToRoute.isSome then mf c c.method [] n s else s := by
  rw [visit_eq]
  simp [traverseHead]

theorem traverseHead_cons {H σ : Type} (mf : findContext → Str → Str → Node H → σ → σ)
    (n : Node H) (x : Char) (path : Str) (c : findContext) (s : σ) :
    traverseHead mf n (x :: path) c s = s := by
  simp [traverseHead]

/-- Two callbacks that keep a relation between their states keep it along a traversal. -/
theorem visit_rel {H σ τ : Type} (R : σ → τ → Prop)
    (mf : findContext → Str → Str → Node H → σ → σ)
    (mg : findContext → Str → Str → Node H → τ → τ)
    (hstep : ∀ c m p n s t, R s t → R (mf c m p n s) (mg c m p n t)) (c : findContext) :
    ∀ (n : Node H) (path : Str) (s : σ) (t : τ), R s t →
      R (visit mf c n path s) (visit mg c n path t) := by
  intro n
  induction n using Node.induct with
  | step n hch hpc hrc hsc =>
    intro path s t hst
    have hopt : ∀ (oc : Option (Node H)),
        (∀ child, oc = some child → ∀ (path : Str) (s : σ) (t : τ), R s t →
          R (visit mf c child path s) (visit mg c child path t)) →
        ∀ (p : Str) (s : σ) (t : τ), R s t →
          R (visitOpt mf c oc p s) (visitOpt mg c oc p t) := by
      intro oc ih p s t hst
      cases oc with
      | none => exact hst
      | some ch => exact ih ch rfl p s t hst
    have hhead : R (traverseHead mf n path c s) (traverseHead mg n path c t) := by
      simp only [traverseHead]
      split_ifs
      · exact hstep _ _ _ _ _ _ hst
      · exact hst
    rw [visit_eq, visit_eq]
    split_ifs
    · exact hhead
    · apply hopt
      · intro child hchild
        simp only [literalChild] at hchild
        split_ifs at hchild
        cases hC : n.Children with
        | none => simp [hC] at hchild
        | some m =>
          simp only [hC] at hchild
          exact hch m hC _ (mapGet_mem _ _ _ hchild)
      · exact hopt _ hrc _ _ _ (hopt _ hpc _ _ _ (hopt _ hsc _ _ _ hhead))

/-! ## Lemmas on the map that `compress` merges -/

theorem mergeGrandChildren_eq {H : Type} (key : Str) (gd : Option (List (Str × Node H)))
    (merged : List (Str × Node H)) :
    mergeGrandChildren key gd merged =
      (entriesOf gd).foldl (fun acc g => mapSet acc (key ++ g.1) g.2) merged := by
  cases gd <;> rfl

theorem mapGet_mapSet {V : Type} (m : List (Str × V)) (k k2 : Str) (v : V) :
    mapGet (mapSet m k v) k2 = if k = k2 then some v else mapGet m k2 := by
  by_cases h : k = k2
  · subst h
    simp [mapGet_mapSet_same]
  · simp [h, mapGet_mapSet_other _ _ _ _ h]

theorem mapGet_eq_none_of_not_mem {V : Type} (m : List (Str × V)) (k : Str)
    (h : k ∉ m.map Prod.fst) : mapGet m k = none := by
  induction m with
  | nil => rfl
  | cons kv rest ih =>
    obtain ⟨k0, v0⟩ := kv
    simp only [List.map_cons, List.mem_cons, not_or] at h
    simp [mapGet, Ne.symm h.1, ih h.2]

theorem mapGet_of_mem {V : Type} (m : List (Str × V)) (k : Str) (v : V)
    (hnd : (m.map Prod.fst).Nodup) (h : (k, v) ∈ m) : mapGet m k = some v := by
  induction m with
  | nil => simp at h
  | cons kv rest ih =>
    obtain ⟨k0, v0⟩ := kv
    simp only [List.map_cons, List.nodup_cons] at hnd
    rcases List.mem_cons.mp h with h1 | h1
    · simp only [Prod.mk.injEq] at h1
      simp [mapGet, h1.1, h1.2]
    · have hk : k0 ≠ k := by
        intro hk
        apply hnd.1
        rw [hk]
        exact List.mem_map_of_mem Prod.fst h1
      simp [mapGet, hk, ih hnd.2 h1]

/-- The lookup in the map filled by the inner loop of `compress`. -/
theorem mapGet_mergeGrandChildren {H : Type} (key : Str) (gm : List (Str × Node H))
    (hnd : (gm.map Prod.fst).Nodup) :
    ∀ (acc : List (Str × Node H)) (q : Str),
      mapGet (gm.foldl (fun acc g => mapSet acc (key ++ g.1) g.2) acc) q =
        match (if q.take key.length = key then mapGet gm (q.drop key.length) else none) with
        | some v => some v
        | none => mapGet acc q := by
  induction gm with
  | nil =>
    intro acc q
    simp [mapGet]
  | cons g rest ih =>
    intro acc q
    obtain ⟨gk, gv⟩ := g
    simp only [List.map_cons, List.nodup_cons] at hnd
    rw [List.foldl_cons, ih hnd.2, mapGet_mapSet]
    by_cases hq : q.take key.length = key
    · simp only [hq, if_true, mapGet]
      by_cases hg : gk = q.drop key.length
      · have hq2 : key ++ gk = q := by
          rw [hg]
          conv_rhs => rw [← List.take_append_drop key.length q]
          rw [hq]
        have hn : mapGet rest (q.drop key.length) = none :=
          mapGet_eq_none_of_not_mem _ _ (hg ▸ hnd.1)
        rw [hn]
        simp only [hq2, if_true, hg.symm]
      · have hq2 : key ++ gk ≠ q := by
          intro h
          apply hg
          rw [← h]
          simp
        simp only [hg, if_false, hq2]
    · have hq2 : key ++ gk ≠ q := by
        intro h
        apply hq
        rw [← h]
        simp
      simp only [hq, if_false, hq2]

/-- The lookup in the map `merged` of `compress`: the child under the first `k` bytes
of the key, then the grandchild under the rest. -/
theorem mapGet_foldl_merge {H : Type} (k : Nat) (m : List (Str × Node H))
    (hnd : (m.map Prod.fst).Nodup) (hlen : ∀ kv ∈ m, kv.1.length = k)
    (hgd : ∀ kv ∈ m, ((entriesOf kv.2.Children).map Prod.fst).Nodup) :
    ∀ (acc : List (Str × Node H)) (q : Str),
      mapGet (m.foldl
        (fun (merged : List (Str × Node H)) kv => mergeGrandChildren kv.1 kv.2.Children merged)
        acc) q =
        match (match mapGet m (q.take k) with
                | none => none
                | some c => mapGet (entriesOf c.Children) (q.drop k)) with
        | some v => some v
        | none => mapGet acc q := by
  induction m with
  | nil =>
    intro acc q
    simp [mapGet]
  | cons kv rest ih =>
    intro acc q
    obtain ⟨k1, c1⟩ := kv
    simp only [List.map_cons, List.nodup_cons] at hnd
    have hk1 : k1.length = k := hlen (k1, c1) (List.mem_cons_self _ _)
    have hg1 := hgd (k1, c1) (List.mem_cons_self _ _)
    rw [List.foldl_cons,
      ih hnd.2 (fun kv h => hlen kv (List.mem_cons_of_mem _ h))
        (fun kv h => hgd kv (List.mem_cons_of_mem _ h)),
      mergeGrandChildren_eq, mapGet_mergeGrandChildren k1 _ hg1, hk1]
    by_cases hq : q.take k = k1
    · have hn : mapGet rest k1 = none := mapGet_eq_none_of_not_mem _ _ hnd.1
      simp [hn, hq, mapGet]
    · have hq2 : ¬ k1 = q.take k := fun h => hq h.symm
      simp [hq, hq2, mapGet]

theorem mapGet_mergeChildren {H : Type} (k : Nat) (m : List (Str × Node H))
    (hnd : (m.map Prod.fst).Nodup) (hlen : ∀ kv ∈ m, kv.1.length = k)
    (hgd : ∀ kv ∈ m, ((entriesOf kv.2.Children).map Prod.fst).Nodup) (q : Str) :
    mapGet (mergeChildren m) q =
      match mapGet m (q.take k) with
      | none => none
      | some c => mapGet (entriesOf c.Children) (q.drop k) := by
  rw [mergeChildren, mapGet_foldl_merge k m hnd hlen hgd]
  cases mapGet m (q.take k) with
  | none => rfl
  | some c =>
    simp only []
    cases hg : mapGet (entriesOf c.Children) (q.drop k) with
    | none => rfl
    | some v => rfl

theorem mem_mapSet {V : Type} (m : List (Str × V)) (k : Str) (v : V) (e : Str × V)
    (h : e ∈ mapSet m k v) : e ∈ m ∨ e = (k, v) := by
  induction m with
  | nil =>
    right
    simpa [mapSet] using h
  | cons kv rest ih =>
    obtain ⟨k0, v0⟩ := kv
    by_cases hk : k0 = k
    · simp only [mapSet, hk, if_true, List.mem_cons] at h
      rcases h with h | h
      · right
        exact h
      · left
        exact List.mem_cons_of_mem _ h
    · simp only [mapSet, hk, if_false, List.mem_cons] at h
      rcases h with h | h
      · left
        rw [h]
        exact List.mem_cons_self _ _
      · rcases ih h with h2 | h2
        · left
          exact List.mem_cons_of_mem _ h2
        · right
          exact h2

theorem keys_mapSet_nodup {V : Type} (m : List (Str × V)) (k : Str) (v : V)
    (h : (m.map Prod.fst).Nodup) : ((mapSet m k v).map Prod.fst).Nodup := by
  induction m with
  | nil => simp [mapSet]
  | cons kv rest ih =>
    obtain ⟨k0, v0⟩ := kv
    simp only [List.map_cons, List.nodup_cons] at h
    by_cases hk : k0 = k
    · simp only [mapSet, hk, if_true, List.map_cons, List.nodup_cons]
      exact ⟨hk ▸ h.1, h.2⟩
    · simp only [mapSet, hk, if_false, List.map_cons, List.nodup_cons]
      refine ⟨?_, ih h.2⟩
      intro hmem
      obtain ⟨e, he, hek⟩ := List.mem_map.mp hmem
      rcases mem_mapSet _ _ _ _ he with h1 | h1
      · exact h.1 (hek ▸ List.mem_map_of_mem Prod.fst h1)
      · rw [h1] at hek
        exact hk hek.symm

theorem mergeGrandChildren_spec {H : Type} (key : Str) (gm : List (Str × Node H)) :
    ∀ (acc : List (Str × Node H)), (acc.map Prod.fst).Nodup →
      ((gm.foldl (fun acc g => mapSet acc (key ++ g.1) g.2) acc).map Prod.fst).Nodup ∧
      ∀ e ∈ gm.foldl (fun acc g => mapSet acc (key ++ g.1) g.2) acc,
        e ∈ acc ∨ ∃ g ∈ gm, e = (key ++ g.1, g.2) := by
  induction gm with
  | nil =>
    intro acc hacc
    exact ⟨hacc, fun e he => Or.inl he⟩
  | cons g rest ih =>
    intro acc hacc
    rw [List.foldl_cons]
    obtain ⟨h1, h2⟩ := ih (mapSet acc (key ++ g.1) g.2) (keys_mapSet_nodup _ _ _ hacc)
    refine ⟨h1, ?_⟩
    intro e he
    rcases h2 e he with h3 | ⟨g2, hg2, h3⟩
    · rcases mem_mapSet _ _ _ _ h3 with h4 | h4
      · exact Or.inl h4
      · exact Or.inr ⟨g, List.mem_cons_self _ _, h4⟩
    · exact Or.inr ⟨g2, List.mem_cons_of_mem _ hg2, h3⟩

theorem foldl_merge_spec {H : Type} (m : List (Str × Node H)) :
    ∀ (acc : List (Str × Node H)), (acc.map Prod.fst).Nodup →
      ((m.foldl (fun (merged : List (Str × Node H)) kv =>
          mergeGrandChildren kv.1 kv.2.Children merged) acc).map Prod.fst).Nodup ∧
      ∀ e ∈ m.foldl (fun (merged : List (Str × Node H)) kv =>
          mergeGrandChildren kv.1 kv.2.Children merged) acc,
        e ∈ acc ∨ ∃ kv ∈ m, ∃ g ∈ entriesOf kv.2.Children, e = (kv.1 ++ g.1, g.2) := by
  induction m with
  | nil =>
    intro acc hacc
    exact ⟨hacc, fun e he => Or.inl he⟩
  | cons kv rest ih =>
    intro acc hacc
    rw [List.foldl_cons, mergeGrandChildren_eq]
    obtain ⟨h1, h2⟩ := mergeGrandChildren_spec kv.1 (entriesOf kv.2.Children) acc hacc
    obtain ⟨h3, h4⟩ := ih _ h1
    refine ⟨h3, ?_⟩
    intro e he
    rcases h4 e he with h5 | ⟨kv2, hkv2, g, hg, h5⟩
    · rcases h2 e h5 with h6 | ⟨g, hg, h6⟩
      · exact Or.inl h6
      · exact Or.inr ⟨kv, List.mem_cons_self _ _, g, hg, h6⟩
    · exact Or.inr ⟨kv2, List.mem_cons_of_mem _ hkv2, g, hg, h5⟩

theorem mergeChildren_nodup {H : Type} (m : List (Str × Node H)) :
    ((mergeChildren m).map Prod.fst).Nodup :=
  (foldl_merge_spec m [] List.nodup_nil).1

theorem mem_mergeChildren {H : Type} (m : List (Str × Node H)) (e : Str × Node H)
    (he : e ∈ mergeChildren m) :
    ∃ kv ∈ m, ∃ g ∈ entriesOf kv.2.Children, e = (kv.1 ++ g.1, g.2) := by
  rcases (foldl_merge_spec m [] List.nodup_nil).2 e he with h | h
  · simp at h
  · exact h

/-! ## Lemmas on the states of a node tree -/

theorem allChildren_iff {H : Type} (P : Node H → Bool) (m : List (Str × Node H)) :
    Node.allChildren P m = true ↔ ∀ kv ∈ m, Node.all P kv.2 = true := by
  induction m with
  | nil =>
    have h : Node.allChildren P ([] : List (Str × Node H)) = true := rfl
    simp only [h, List.not_mem_nil, false_implies, implies_true]
  | cons kv rest ih =>
    obtain ⟨k, c⟩ := kv
    have h : Node.allChildren P ((k, c) :: rest) = (Node.all P c && Node.allChildren P rest) :=
      rfl
    simp only [h, Bool.and_eq_true, ih, List.mem_cons, forall_eq_or_imp]

theorem all_eq {H : Type} (P : Node H → Bool) (n : Node H) :
    Node.all P n =
      (P n && Node.allChildren P (entriesOf n.Children) &&
        (match n.ParamChild with
          | none => true
          | some c => Node.all P c) &&
        (match n.RelaxedChild with
          | none => true
          | some c => Node.all P c) &&
        (match n.SplatChild with
          | none => true
          | some c => Node.all P c)) := by
  obtain ⟨children, keyLen, pc, pn, rc, rn, sc, sn, routes⟩ := n
  cases children <;> cases pc <;> cases rc <;> cases sc <;> rfl

theorem all_iff {H : Type} (P : Node H → Bool) (n : Node H) :
    Node.all P n = true ↔
      P n = true ∧ (∀ kv ∈ entriesOf n.Children, Node.all P kv.2 = true) ∧
      (∀ c, n.ParamChild = some c → Node.all P c = true) ∧
      (∀ c, n.RelaxedChild = some c → Node.all P c = true) ∧
      (∀ c, n.SplatChild = some c → Node.all P c = true) := by
  rw [all_eq]
  simp only [Bool.and_eq_true, allChildren_iff]
  cases n.ParamChild <;> cases n.RelaxedChild <;> cases n.SplatChild <;>
    simp only [and_true, true_and, reduceCtorEq, false_implies, implies_true,
      Option.some.injEq, forall_eq', and_assoc]

theorem compressFuel_zero {H : Type} (n : Node H) : compressFuel 0 n = n := by
  simp only [compressFuel]

theorem compressFuel_succ {H : Type} (f : Nat) (n : Node H) :
    compressFuel (f + 1) n =
      match n.Children with
      | none => compressStep f n none n.ChildrenKeyLen
      | some m =>
        if m.length = 0 then compressStep f n (some m) n.ChildrenKeyLen
        else if canCompress m then
          compressFuel f (compressStep f n (some (mergeChildren m)) (n.ChildrenKeyLen + 1))
        else
          compressStep f n (some (m.map fun kv => (kv.1, compressFuel f kv.2)))
            n.ChildrenKeyLen := by
  obtain ⟨children, keyLen, pc, pn, rc, rn, sc, sn, routes⟩ := n
  cases children with
  | none => simp only [compressFuel, compressStep]
  | some m =>
    simp only [compressFuel, compressStep]

theorem canCompress_eq {H : Type} (m : List (Str × Node H)) :
    canCompress m = m.all fun kv => passThrough kv.2 := rfl

theorem compressFuel_shape {H : Type} :
    ∀ (f : Nat) (n : Node H),
      (compressFuel f n).HttpMethodToRoute = n.HttpMethodToRoute ∧
      (compressFuel f n).ParamChild.isSome = n.ParamChild.isSome ∧
      (compressFuel f n).RelaxedChild.isSome = n.RelaxedChild.isSome ∧
      (compressFuel f n).SplatChild.isSome = n.SplatChild.isSome := by
  intro f
  induction f with
  | zero =>
    intro n
    simp only [compressFuel_zero, and_self]
  | succ f ih =>
    intro n
    have hstep : ∀ ch kl,
        (compressStep f n ch kl).HttpMethodToRoute = n.HttpMethodToRoute ∧
        (compressStep f n ch kl).ParamChild.isSome = n.ParamChild.isSome ∧
        (compressStep f n ch kl).RelaxedChild.isSome = n.RelaxedChild.isSome ∧
        (compressStep f n ch kl).SplatChild.isSome = n.SplatChild.isSome := by
      intro ch kl
      simp only [compressStep, Option.isSome_map', and_self]
    rw [compressFuel_succ]
    cases n.Children with
    | none => exact hstep _ _
    | some m =>
      simp only []
      split_ifs
      · exact hstep _ _
      · obtain ⟨h1, h2, h3, h4⟩ := ih (compressStep f n (some (mergeChildren m))
          (n.ChildrenKeyLen + 1))
        obtain ⟨g1, g2, g3, g4⟩ := hstep (some (mergeChildren m)) (n.ChildrenKeyLen + 1)
        exact ⟨h1.trans g1, h2.trans g2, h3.trans g3, h4.trans g4⟩
      · exact hstep _ _

theorem passThrough_compressFuel {H : Type} (f : Nat) (n : Node H) :
    passThrough (compressFuel f n) = passThrough n := by
  obtain ⟨h1, h2, h3, h4⟩ := compressFuel_shape f n
  simp only [passThrough, h1, h2, h3, h4]

theorem canCompress_map_compressFuel {H : Type} (f : Nat) (m : List (Str × Node H)) :
    canCompress (m.map fun kv => (kv.1, compressFuel f kv.2)) = canCompress m := by
  simp only [canCompress_eq, List.all_map]
  congr 1
  funext kv
  exact passThrough_compressFuel f kv.2

theorem mergeableAt_iff {H : Type} (n : Node H) :
    mergeableAt n = true ↔
      (∀ kv ∈ entriesOf n.Children, kv.1.length = n.ChildrenKeyLen) ∧
      ((entriesOf n.Children).map Prod.fst).Nodup ∧
      (entriesOf n.Children = [] ∨ canCompress (entriesOf n.Children) = false ∨
        ∀ kv ∈ entriesOf n.Children, ∀ g ∈ entriesOf kv.2.Children, g.1.length = 1) := by
  simp only [mergeableAt, keyLenAt, Bool.and_eq_true, Bool.or_eq_true, List.all_eq_true,
    beq_iff_eq, decide_eq_true_eq, List.isEmpty_iff, Bool.not_eq_true', and_assoc, or_assoc]

theorem mergeableAt_congr {H : Type} (n1 n2 : Node H) (hc : n1.Children = n2.Children)
    (hk : n1.ChildrenKeyLen = n2.ChildrenKeyLen) : mergeableAt n1 = mergeableAt n2 := by
  simp only [mergeableAt, keyLenAt, hc, hk]

theorem all_compressStep {H : Type} (P : Node H → Bool) (f : Nat) (n : Node H)
    (ch : Option (List (Str × Node H))) (kl : Nat)
    (ih : ∀ x : Node H, Node.all P x = true → Node.all P (compressFuel f x) = true)
    (hn : Node.all P n = true) (hP : P (compressStep f n ch kl) = true)
    (hch : ∀ kv ∈ entriesOf ch, Node.all P kv.2 = true) :
    Node.all P (compressStep f n ch kl) = true := by
  obtain ⟨_, _, hpc, hrc, hsc⟩ := (all_iff P n).mp hn
  rw [all_iff]
  refine ⟨hP, hch, ?_, ?_, ?_⟩
  · intro c hc
    simp only [compressStep, Option.map_eq_some'] at hc
    obtain ⟨x, hx, rfl⟩ := hc
    exact ih x (hpc x hx)
  · intro c hc
    simp only [compressStep, Option.map_eq_some'] at hc
    obtain ⟨x, hx, rfl⟩ := hc
    exact ih x (hrc x hx)
  · intro c hc
    simp only [compressStep, Option.map_eq_some'] at hc
    obtain ⟨x, hx, rfl⟩ := hc
    exact ih x (hsc x hx)

/-- The node at which `compress` merges the literal map is again in a state in which
`compress` may merge. -/
theorem mergeableAt_merge {H : Type} (f : Nat) (n : Node H) (m : List (Str × Node H))
    (hC : n.Children = some m) (hne : m ≠ []) (hcan : canCompress m = true)
    (hn : Node.all mergeableAt n = true) :
    mergeableAt (compressStep f n (some (mergeChildren m)) (n.ChildrenKeyLen + 1)) = true ∧
    ∀ e ∈ mergeChildren m, Node.all mergeableAt e.2 = true := by
  obtain ⟨hP, hch, _, _, _⟩ := (all_iff mergeableAt n).mp hn
  simp only [hC, entriesOf] at hch
  obtain ⟨hlen, hnd, h3⟩ := (mergeableAt_iff n).mp hP
  simp only [hC, entriesOf] at hlen hnd h3
  have hg1 : ∀ kv ∈ m, ∀ g ∈ entriesOf kv.2.Children, g.1.length = 1 := by
    rcases h3 with h3 | h3 | h3
    · exact absurd h3 hne
    · rw [hcan] at h3
      exact absurd h3 (by decide)
    · exact h3
  have hchild : ∀ kv ∈ m, ∀ g ∈ entriesOf kv.2.Children, Node.all mergeableAt g.2 = true :=
    fun kv hkv g hg => ((all_iff mergeableAt kv.2).mp (hch kv hkv)).2.1 g hg
  have hgnd : ∀ kv ∈ m, ((entriesOf kv.2.Children).map Prod.fst).Nodup :=
    fun kv hkv => ((mergeableAt_iff kv.2).mp ((all_iff mergeableAt kv.2).mp (hch kv hkv)).1).2.1
  refine ⟨?_, ?_⟩
  · rw [mergeableAt_iff]
    simp only [compressStep, entriesOf]
    refine ⟨?_, mergeChildren_nodup m, ?_⟩
    · intro e he
      obtain ⟨kv, hkv, g, hg, rfl⟩ := mem_mergeChildren m e he
      simp only [List.length_append, hlen kv hkv, hg1 kv hkv g hg]
    · by_cases hcm : canCompress (mergeChildren m) = true
      · right
        right
        intro e he gg hgg
        obtain ⟨kv, hkv, g, hg, rfl⟩ := mem_mergeChildren m e he
        obtain ⟨_, _, h5⟩ :=
          (mergeableAt_iff kv.2).mp ((all_iff mergeableAt kv.2).mp (hch kv hkv)).1
        rcases h5 with h5 | h5 | h5
        · rw [h5] at hg
          exact absurd hg (List.not_mem_nil _)
        · exfalso
          rw [canCompress_eq] at h5
          have h6 : ¬ ((entriesOf kv.2.Children).all fun kv => passThrough kv.2) = true := by
            rw [h5]
            decide
          simp only [List.all_eq_true, not_forall] at h6
          obtain ⟨g2, hg2, hg3⟩ := h6
          have hget : mapGet (mergeChildren m) (kv.1 ++ g2.1) = some g2.2 := by
            rw [mapGet_mergeChildren n.ChildrenKeyLen m hnd hlen hgnd]
            have ht : (kv.1 ++ g2.1).take n.ChildrenKeyLen = kv.1 := by
              rw [← hlen kv hkv]
              exact List.take_left' rfl
            have hd : (kv.1 ++ g2.1).drop n.ChildrenKeyLen = g2.1 := by
              rw [← hlen kv hkv]
              exact List.drop_left' rfl
            rw [ht, hd, mapGet_of_mem m kv.1 kv.2 hnd hkv]
            exact mapGet_of_mem _ g2.1 g2.2 (hgnd kv hkv) hg2
          have hmem := mapGet_mem _ _ _ hget
          rw [canCompress_eq, List.all_eq_true] at hcm
          exact hg3 (hcm (kv.1 ++ g2.1, g2.2) hmem)
        · exact h5 g hg gg hgg
      · right
        left
        simpa using hcm
  · intro e he
    obtain ⟨kv, hkv, g, hg, rfl⟩ := mem_mergeChildren m e he
    exact hchild kv hkv g hg

/-- `compress` keeps a tree in a state in which `compress` may merge. -/
theorem compressFuel_mergeable {H : Type} :
    ∀ (f : Nat) (n : Node H), Node.all mergeableAt n = true →
      Node.all mergeableAt (compressFuel f n) = true := by
  intro f
  induction f with
  | zero =>
    intro n hn
    rw [compressFuel_zero]
    exact hn
  | succ f ih =>
    intro n hn
    obtain ⟨hP, hch, _, _, _⟩ := (all_iff mergeableAt n).mp hn
    rw [compressFuel_succ]
    cases hC : n.Children with
    | none =>
      simp only []
      apply all_compressStep mergeableAt f n _ _ ih hn
      · rw [mergeableAt_iff]
        simp only [compressStep, entriesOf]
        exact ⟨fun kv hkv => absurd hkv (List.not_mem_nil _), List.nodup_nil, Or.inl trivial⟩
      · intro kv hkv
        exact absurd hkv (List.not_mem_nil _)
    | some m =>
      simp only [hC, entriesOf] at hch
      simp only []
      split_ifs with h0 hcan
      · apply all_compressStep mergeableAt f n _ _ ih hn
        · rw [← hP]
          exact mergeableAt_congr _ _ (by simp only [compressStep, hC]) rfl
        · exact hch
      · have hne : m ≠ [] := fun h => h0 (by rw [h]; rfl)
        obtain ⟨h1, h2⟩ := mergeableAt_merge f n m hC hne hcan hn
        exact ih _ (all_compressStep mergeableAt f n _ _ ih hn h1 h2)
      · apply all_compressStep mergeableAt f n _ _ ih hn
        · obtain ⟨hlen, hnd, h3⟩ := (mergeableAt_iff n).mp hP
          simp only [hC, entriesOf] at hlen hnd h3
          rw [mergeableAt_iff]
          simp only [compressStep, entriesOf, List.map_map]
          refine ⟨?_, ?_, ?_⟩
          · intro kv hkv
            obtain ⟨kv0, hkv0, rfl⟩ := List.mem_map.mp hkv
            exact hlen kv0 hkv0
          · exact hnd
          · right
            left
            rw [canCompress_map_compressFuel]
            simpa using hcan
        · intro kv hkv
          simp only [entriesOf] at hkv
          obtain ⟨kv0, hkv0, rfl⟩ := List.mem_map.mp hkv
          exact ih _ (hch kv0 hkv0)

/-! ## `compress` and the traversal -/

theorem take_succ_take (l : Str) (k : Nat) : (l.take (k + 1)).take k = l.take k := by
  rw [List.take_take]
  simp

theorem drop_take_succ (l : Str) (k : Nat) : (l.take (k + 1)).drop k = (l.drop k).take 1 := by
  rw [List.drop_take]
  simp

theorem drop_one_drop (l : Str) (k : Nat) : (l.drop k).drop 1 = l.drop (k + 1) := by
  rw [List.drop_drop]

theorem length_take_one (l : Str) (h : l ≠ []) : (l.take 1).length = 1 := by
  cases l with
  | nil => exact absurd rfl h
  | cons a t => simp

theorem passThrough_iff {H : Type} (n : Node H) :
    passThrough n = true ↔
      n.HttpMethodToRoute = none ∧ n.SplatChild = none ∧ n.ParamChild = none ∧
      n.RelaxedChild = none := by
  have h : ∀ {α : Type} (o : Option α), o.isSome = false ↔ o = none := by
    intro α o
    cases o <;> simp
  simp only [passThrough, Bool.not_eq_true', Bool.or_eq_false_iff, h, and_assoc]

theorem mapGet_map {V W : Type} (g : V → W) (m : List (Str × V)) (q : Str) :
    mapGet (m.map fun kv => (kv.1, g kv.2)) q = (mapGet m q).map g := by
  induction m with
  | nil => rfl
  | cons kv rest ih =>
    obtain ⟨k, v⟩ := kv
    by_cases h : k = q
    · simp only [List.map_cons, mapGet, h, if_true, Option.map_some']
    · simp only [List.map_cons, mapGet, h, if_false, ih]

theorem visitOpt_none {H σ : Type} (mf : findContext → Str → Str → Node H → σ → σ)
    (c : findContext) (p : Str) (s : σ) : visitOpt mf c none p s = s := rfl

theorem visitOpt_some {H σ : Type} (mf : findContext → Str → Str → Node H → σ → σ)
    (c : findContext) (ch : Node H) (p : Str) (s : σ) :
    visitOpt mf c (some ch) p s = visit mf c ch p s := rfl

/-- Two nodes with the same route map, whose branches are traversed alike, are
traversed alike. -/
theorem visit_congr {H σ : Type} (mf : findContext → Str → Str → Node H → σ → σ)
    (hmf : ∀ c m p (n1 n2 : Node H) s, n1.HttpMethodToRoute = n2.HttpMethodToRoute →
      mf c m p n1 s = mf c m p n2 s)
    (c : findContext) (n1 n2 : Node H)
    (hr : n1.HttpMethodToRoute = n2.HttpMethodToRoute)
    (hs : ∀ p s, visitOpt mf c n1.SplatChild p s = visitOpt mf c n2.SplatChild p s)
    (hp : ∀ p s, visitOpt mf c n1.ParamChild p s = visitOpt mf c n2.ParamChild p s)
    (hx : ∀ p s, visitOpt mf c n1.RelaxedChild p s = visitOpt mf c n2.RelaxedChild p s)
    (hl : ∀ path s, path ≠ [] →
      visitOpt mf c (literalChild n1 path) (path.drop n1.ChildrenKeyLen) s =
        visitOpt mf c (literalChild n2 path) (path.drop n2.ChildrenKeyLen) s)
    (path : Str) (s : σ) : visit mf c n1 path s = visit mf c n2 path s := by
  have hh : traverseHead mf n1 path c s = traverseHead mf n2 path c s := by
    simp only [traverseHead, hr]
    split_ifs
    · exact hmf _ _ _ _ _ _ hr
    · rfl
  rw [visit_eq, visit_eq, hh]
  split_ifs with h0
  · rfl
  · rw [hl path _ h0, hx, hp, hs]

/-- The traversal of a node that `canCompress` accepts: only its literal branch. -/
theorem visit_passThrough {H σ : Type} (mf : findContext → Str → Str → Node H → σ → σ)
    (c : findContext) (n : Node H) (hn : passThrough n = true) (path : Str) (s : σ) :
    visit mf c n path s =
      if path = [] then s
      else visitOpt mf c (literalChild n path) (path.drop n.ChildrenKeyLen) s := by
  obtain ⟨h1, h2, h3, h4⟩ := (passThrough_iff n).mp hn
  rw [visit_eq]
  simp only [h2, h3, h4, visitOpt_none, traverseHead, h1, Option.isSome_none,
    Bool.false_eq_true, false_and, if_false]

theorem literalChild_eq {H : Type} (n : Node H) (path : Str) :
    literalChild n path =
      if path.length < n.ChildrenKeyLen then none
      else mapGet (entriesOf n.Children) (path.take n.ChildrenKeyLen) := by
  simp only [literalChild, entriesOf]
  split_ifs
  · rfl
  · cases n.Children <;> rfl

/-- The literal branch after a merge is the literal branch before it, followed by the
literal branch of the child. -/
theorem visitOpt_literalChild_merge {H σ : Type}
    (mf : findContext → Str → Str → Node H → σ → σ) (c : findContext)
    (n n2 : Node H) (m : List (Str × Node H))
    (hC : n.Children = some m) (hcan : canCompress m = true) (hne : m ≠ [])
    (hn : Node.all mergeableAt n = true)
    (hC2 : n2.Children = some (mergeChildren m))
    (hK2 : n2.ChildrenKeyLen = n.ChildrenKeyLen + 1)
    (path : Str) (s : σ) :
    visitOpt mf c (literalChild n2 path) (path.drop n2.ChildrenKeyLen) s =
      visitOpt mf c (literalChild n path) (path.drop n.ChildrenKeyLen) s := by
  obtain ⟨hP, hch, _, _, _⟩ := (all_iff mergeableAt n).mp hn
  simp only [hC, entriesOf] at hch
  obtain ⟨hlen, hnd, h3⟩ := (mergeableAt_iff n).mp hP
  simp only [hC, entriesOf] at hlen hnd h3
  have hg1 : ∀ kv ∈ m, ∀ g ∈ entriesOf kv.2.Children, g.1.length = 1 := by
    rcases h3 with h3 | h3 | h3
    · exact absurd h3 hne
    · rw [hcan] at h3
      exact absurd h3 (by decide)
    · exact h3
  have hgnd : ∀ kv ∈ m, ((entriesOf kv.2.Children).map Prod.fst).Nodup :=
    fun kv hkv => ((mergeableAt_iff kv.2).mp ((all_iff mergeableAt kv.2).mp (hch kv hkv)).1).2.1
  have hklen : ∀ kv ∈ m, ∀ g ∈ entriesOf kv.2.Children, g.1.length = kv.2.ChildrenKeyLen :=
    fun kv hkv => ((mergeableAt_iff kv.2).mp ((all_iff mergeableAt kv.2).mp (hch kv hkv)).1).1
  rw [literalChild_eq, literalChild_eq, hK2, hC2, hC]
  simp only [entriesOf]
  by_cases h1 : path.length < n.ChildrenKeyLen
  · have h2 : path.length < n.ChildrenKeyLen + 1 := by omega
    simp only [h1, h2, if_true, visitOpt_none]
  · simp only [h1, if_false]
    rw [mapGet_mergeChildren n.ChildrenKeyLen m hnd hlen hgnd, take_succ_take, drop_take_succ]
    cases hG : mapGet m (path.take n.ChildrenKeyLen) with
    | none =>
      simp only [visitOpt_none]
      split_ifs <;> rfl
    | some child =>
      have hmem := mapGet_mem _ _ _ hG
      have hpass : passThrough child = true := by
        rw [canCompress_eq, List.all_eq_true] at hcan
        exact hcan _ hmem
      simp only [visitOpt_some]
      rw [visit_passThrough mf c child hpass]
      by_cases h2 : path.length < n.ChildrenKeyLen + 1
      · have h4 : path.drop n.ChildrenKeyLen = [] := by
          apply List.drop_eq_nil_of_le
          omega
        simp only [h2, if_true, visitOpt_none, h4]
      · have h4 : path.drop n.ChildrenKeyLen ≠ [] := by
          intro h
          have := List.drop_eq_nil_iff.mp h
          omega
        simp only [h2, h4, if_false]
        rw [literalChild_eq]
        cases hX : mapGet (entriesOf child.Children) ((path.drop n.ChildrenKeyLen).take 1) with
        | some gd =>
          have hk1 : child.ChildrenKeyLen = 1 := by
            rw [← hklen _ hmem _ (mapGet_mem _ _ _ hX)]
            exact length_take_one _ h4
          have h5 : ¬ (path.drop n.ChildrenKeyLen).length < 1 := by
            have := List.length_pos.mpr h4
            omega
          simp only [hk1, h5, if_false, hX, drop_one_drop]
        | none =>
          simp only [visitOpt_none]
          split_ifs with h6
          · rfl
          · cases hY : mapGet (entriesOf child.Children)
                ((path.drop n.ChildrenKeyLen).take child.ChildrenKeyLen) with
            | none => rfl
            | some gd =>
              exfalso
              have hm2 := mapGet_mem _ _ _ hY
              have e1 := hg1 _ hmem _ hm2
              have e2 := hklen _ hmem _ hm2
              have hk1 : child.ChildrenKeyLen = 1 := by
                simp only at e1 e2
                omega
              rw [hk1, hX] at hY
              exact Option.noConfusion hY

theorem visitOpt_map_compressFuel {H σ : Type}
    (mf : findContext → Str → Str → Node H → σ → σ) (c : findContext) (f : Nat)
    (ih : ∀ n : Node H, Node.all mergeableAt n = true → ∀ (path : Str) (s : σ),
      visit mf c (compressFuel f n) path s = visit mf c n path s)
    (oc : Option (Node H)) (hoc : ∀ ch, oc = some ch → Node.all mergeableAt ch = true)
    (p : Str) (s : σ) :
    visitOpt mf c (oc.map (compressFuel f)) p s = visitOpt mf c oc p s := by
  cases oc with
  | none => rfl
  | some ch => exact ih ch (hoc ch rfl) p s

/-- `compress` does not change what a traversal does, for a callback that reads only
the route map of the node it is given. -/
theorem visit_compressFuel {H σ : Type} (mf : findContext → Str → Str → Node H → σ → σ)
    (hmf : ∀ c m p (n1 n2 : Node H) s, n1.HttpMethodToRoute = n2.HttpMethodToRoute →
      mf c m p n1 s = mf c m p n2 s)
    (c : findContext) :
    ∀ (f : Nat) (n : Node H), Node.all mergeableAt n = true → ∀ (path : Str) (s : σ),
      visit mf c (compressFuel f n) path s = visit mf c n path s := by
  intro f
  induction f with
  | zero =>
    intro n _ path s
    rw [compressFuel_zero]
  | succ f ih =>
    intro n hn path s
    obtain ⟨hP, hch, hpc, hrc, hsc⟩ := (all_iff mergeableAt n).mp hn
    have hstep : ∀ ch kl,
        (∀ path s, path ≠ [] →
          visitOpt mf c (literalChild (compressStep f n ch kl) path)
            (path.drop (compressStep f n ch kl).ChildrenKeyLen) s =
          visitOpt mf c (literalChild n path) (path.drop n.ChildrenKeyLen) s) →
        ∀ path s, visit mf c (compressStep f n ch kl) path s = visit mf c n path s := by
      intro ch kl hl
      exact visit_congr mf hmf c (compressStep f n ch kl) n rfl
        (fun p s => visitOpt_map_compressFuel mf c f ih _ hsc p s)
        (fun p s => visitOpt_map_compressFuel mf c f ih _ hpc p s)
        (fun p s => visitOpt_map_compressFuel mf c f ih _ hrc p s) hl
    rw [compressFuel_succ]
    cases hC : n.Children with
    | none =>
      simp only []
      apply hstep
      intro path s _
      simp only [literalChild_eq, compressStep, hC, entriesOf]
    | some m =>
      simp only [hC, entriesOf] at hch
      simp only []
      split_ifs with h0 hcan
      · apply hstep
        intro path s _
        simp only [literalChild_eq, compressStep, hC, entriesOf]
      · have hne : m ≠ [] := fun h => h0 (by rw [h]; rfl)
        obtain ⟨h1, h2⟩ := mergeableAt_merge f n m hC hne hcan hn
        rw [ih _ (all_compressStep mergeableAt f n _ _ (compressFuel_mergeable f) hn h1 h2)]
        apply hstep
        intro path s _
        exact visitOpt_literalChild_merge mf c n _ m hC hcan hne hn rfl rfl path s
      · apply hstep
        intro path s _
        simp only [literalChild_eq, compressStep, hC, entriesOf, mapGet_map]
        split_ifs
        · rfl
        · cases hG : mapGet m (path.take n.ChildrenKeyLen) with
          | none => rfl
          | some child =>
            simp only [Option.map_some', visitOpt_some]
            exact ih child (hch _ (mapGet_mem _ _ _ hG)) _ _

/-! ## The state that `AddRoute` leaves -/

theorem uncompressedAt_iff {H : Type} (n : Node H) :
    uncompressedAt n = true ↔
      (∀ kv ∈ entriesOf n.Children, kv.1.length = 1) ∧
      (entriesOf n.Children = [] ∨ n.ChildrenKeyLen = 1) ∧
      ((entriesOf n.Children).map Prod.fst).Nodup := by
  simp only [uncompressedAt, Bool.and_eq_true, Bool.or_eq_true, List.all_eq_true,
    beq_iff_eq, decide_eq_true_eq, List.isEmpty_iff, and_assoc]

theorem insertedAt_iff {H : Type} (n : Node H) :
    insertedAt n = true ↔
      (∀ kv ∈ entriesOf n.Children, kv.1.length = 1) ∧
      ((entriesOf n.Children).map Prod.fst).Nodup ∧
      (n.Children = none ∨ n.ChildrenKeyLen = 1) := by
  have h : n.Children.isNone = true ↔ n.Children = none := by
    cases n.Children <;> simp
  simp only [insertedAt, Bool.and_eq_true, uncompressedAt_iff, Bool.or_eq_true, h, beq_iff_eq]
  constructor
  · rintro ⟨⟨h1, _, h3⟩, h4⟩
    exact ⟨h1, h3, h4⟩
  · rintro ⟨h1, h3, h4⟩
    refine ⟨⟨h1, ?_, h3⟩, h4⟩
    rcases h4 with h4 | h4
    · left
      rw [h4]
      rfl
    · right
      exact h4

theorem all_of_all {H : Type} (P Q : Node H → Bool)
    (hPQ : ∀ n, Node.all P n = true → Q n = true) :
    ∀ n, Node.all P n = true → Node.all Q n = true := by
  intro n
  induction n using Node.induct with
  | step n hch hpc hrc hsc =>
    intro hn
    obtain ⟨_, h2, h3, h4, h5⟩ := (all_iff P n).mp hn
    rw [all_iff]
    refine ⟨hPQ n hn, ?_, fun c hc => hpc c hc (h3 c hc), fun c hc => hrc c hc (h4 c hc),
      fun c hc => hsc c hc (h5 c hc)⟩
    intro kv hkv
    cases hC : n.Children with
    | none =>
      rw [hC] at hkv
      exact absurd hkv (List.not_mem_nil _)
    | some m =>
      have hkv2 : kv ∈ m := by
        rw [hC] at hkv
        exact hkv
      exact hch m hC kv hkv2 (h2 kv hkv)

theorem inserted_uncompressed {H : Type} (n : Node H) (h : Node.all insertedAt n = true) :
    isUncompressed n = true := by
  apply all_of_all insertedAt uncompressedAt _ n h
  intro x hx
  have := ((all_iff insertedAt x).mp hx).1
  simp only [insertedAt, Bool.and_eq_true] at this
  exact this.1

theorem uncompressed_keyLenOne {H : Type} (n : Node H) (h : isUncompressed n = true) :
    Node.all keyLenOneAt n = true := by
  apply all_of_all uncompressedAt keyLenOneAt _ n h
  intro x hx
  have := ((all_iff uncompressedAt x).mp hx).1
  simp only [uncompressedAt, Bool.and_eq_true] at this
  exact this.1.1

theorem uncompressed_mergeable {H : Type} (n : Node H) (h : isUncompressed n = true) :
    Node.all mergeableAt n = true := by
  apply all_of_all uncompressedAt mergeableAt _ n h
  intro x hx
  obtain ⟨h1, h2, _, _, _⟩ := (all_iff uncompressedAt x).mp hx
  obtain ⟨a1, a2, a3⟩ := (uncompressedAt_iff x).mp h1
  rw [mergeableAt_iff]
  refine ⟨?_, a3, Or.inr (Or.inr ?_)⟩
  · intro kv hkv
    rcases a2 with a2 | a2
    · rw [a2] at hkv
      exact absurd hkv (List.not_mem_nil _)
    · rw [a2]
      exact a1 kv hkv
  · intro kv hkv g hg
    exact ((uncompressedAt_iff kv.2).mp ((all_iff uncompressedAt kv.2).mp (h2 kv hkv)).1).1 g hg

theorem mergeable_keyLen {H : Type} (n : Node H) (h : Node.all mergeableAt n = true) :
    Node.all keyLenAt n = true := by
  apply all_of_all mergeableAt keyLenAt _ n h
  intro x hx
  have := ((all_iff mergeableAt x).mp hx).1
  simp only [mergeableAt, Bool.and_eq_true] at this
  exact this.1.1

theorem all_inserted_empty {H : Type} : Node.all insertedAt (Node.empty : Node H) = true := by
  rfl

theorem insertedAt_congr {H : Type} (n1 n2 : Node H) (hc : n1.Children = n2.Children)
    (hk : n1.ChildrenKeyLen = n2.ChildrenKeyLen) : insertedAt n1 = insertedAt n2 := by
  simp only [insertedAt, uncompressedAt, hc, hk]

/-- A node whose literal map is that of `n` and whose placeholder children are in the
state `AddRoute` leaves is in that state. -/
theorem all_inserted_of_placeholders {H : Type} (n n2 : Node H)
    (hn : Node.all insertedAt n = true)
    (hc : n2.Children = n.Children) (hk : n2.ChildrenKeyLen = n.ChildrenKeyLen)
    (hp : ∀ c, n2.ParamChild = some c → Node.all insertedAt c = true)
    (hr : ∀ c, n2.RelaxedChild = some c → Node.all insertedAt c = true)
    (hs : ∀ c, n2.SplatChild = some c → Node.all insertedAt c = true) :
    Node.all insertedAt n2 = true := by
  obtain ⟨h1, h2, _, _, _⟩ := (all_iff insertedAt n).mp hn
  rw [all_iff]
  refine ⟨?_, ?_, hp, hr, hs⟩
  · rw [insertedAt_congr n2 n hc hk]
    exact h1
  · rw [hc]
    exact h2

/-- The literal case of `addRoute`: the child under the token is replaced or added. -/
theorem all_inserted_literal {H : Type} (n : Node H) (hn : Node.all insertedAt n = true)
    (children : List (Str × Node H)) (hchildren : children = entriesOf n.Children)
    (kl : Nat) (hkl : kl = 1) (x : Node H) (hx : Node.all insertedAt x = true)
    (tok : Char) (n2 : Node H)
    (hc : n2.Children = some (mapSet children [tok] x)) (hk : n2.ChildrenKeyLen = kl)
    (hp : n2.ParamChild = n.ParamChild) (hr : n2.RelaxedChild = n.RelaxedChild)
    (hs : n2.SplatChild = n.SplatChild) :
    Node.all insertedAt n2 = true := by
  obtain ⟨h1, h2, h3, h4, h5⟩ := (all_iff insertedAt n).mp hn
  obtain ⟨a1, a2, _⟩ := (insertedAt_iff n).mp h1
  subst hchildren
  rw [all_iff, hp, hr, hs]
  refine ⟨?_, ?_, h3, h4, h5⟩
  · rw [insertedAt_iff, hc, hk]
    simp only [entriesOf]
    refine ⟨?_, keys_mapSet_nodup _ _ _ a2, Or.inr hkl⟩
    intro kv hkv
    rcases mem_mapSet _ _ _ _ hkv with h | h
    · exact a1 kv h
    · rw [h]
      rfl
  · intro kv hkv
    rw [hc] at hkv
    simp only [entriesOf] at hkv
    rcases mem_mapSet _ _ _ _ hkv with h | h
    · exact h2 kv h
    · rw [h]
      exact hx

/-- `addRoute` keeps the tree in the state `AddRoute` leaves it in, whether it returns
an error or not. -/
theorem addRouteLoop_inserted {H : Type} :
    ∀ (f : Nat) (n : Node H) (p : Str) (ps : List Str), Node.all insertedAt n = true →
      Node.all insertedAt (addRouteLoop f n p ps).1 = true := by
  intro f
  induction f with
  | zero =>
    intro n p ps hn
    cases p <;> simpa only [addRouteLoop] using hn
  | succ f ih =>
    intro n p ps hn
    obtain ⟨h1, h2, h3, h4, h5⟩ := (all_iff insertedAt n).mp hn
    cases p with
    | nil => simpa only [addRouteLoop] using hn
    | cons tok rem =>
      simp only [addRouteLoop]
      by_cases t1 : tok = ':'
      · rw [if_pos t1]
        by_cases c1 : Contains ps (splitParam rem).1 = true
        · rw [if_pos c1]
          exact hn
        · rw [if_neg c1]
          cases hpc : n.ParamChild with
          | none =>
            simp only []
            refine all_inserted_of_placeholders n _ hn (by rfl) (by rfl) ?_ ?_ ?_
            · intro c hc
              simp only [Option.some.injEq] at hc
              rw [← hc]
              exact ih _ _ _ all_inserted_empty
            · exact h4
            · exact h5
          | some child =>
            simp only []
            by_cases e1 : n.ParamName ≠ (splitParam rem).1
            · rw [if_pos e1]
              exact hn
            · rw [if_neg e1]
              refine all_inserted_of_placeholders n _ hn (by rfl) (by rfl) ?_ ?_ ?_
              · intro c hc
                simp only [Option.some.injEq] at hc
                rw [← hc]
                exact ih _ _ _ (h3 child hpc)
              · exact h4
              · exact h5
      rw [if_neg t1]
      by_cases t2 : tok = '#'
      · rw [if_pos t2]
        by_cases c1 : Contains ps (splitRelaxed rem).1 = true
        · rw [if_pos c1]
          exact hn
        · rw [if_neg c1]
          cases hpc : n.RelaxedChild with
          | none =>
            simp only []
            refine all_inserted_of_placeholders n _ hn (by rfl) (by rfl) ?_ ?_ ?_
            · exact h3
            · intro c hc
              simp only [Option.some.injEq] at hc
              rw [← hc]
              exact ih _ _ _ all_inserted_empty
            · exact h5
          | some child =>
            simp only []
            by_cases e1 : n.RelaxedName ≠ (splitRelaxed rem).1
            · rw [if_pos e1]
              exact hn
            · rw [if_neg e1]
              refine all_inserted_of_placeholders n _ hn (by rfl) (by rfl) ?_ ?_ ?_
              · exact h3
              · intro c hc
                simp only [Option.some.injEq] at hc
                rw [← hc]
                exact ih _ _ _ (h4 child hpc)
              · exact h5
      rw [if_neg t2]
      by_cases t3 : tok = '*'
      · rw [if_pos t3]
        by_cases c1 : Contains ps rem = true
        · rw [if_pos c1]
          exact hn
        · rw [if_neg c1]
          cases hpc : n.SplatChild with
          | none =>
            simp only []
            refine all_inserted_of_placeholders n _ hn (by rfl) (by rfl) ?_ ?_ ?_
            · exact h3
            · exact h4
            · intro c hc
              simp only [Option.some.injEq] at hc
              rw [← hc]
              exact all_inserted_empty
          | some child =>
            simp only []
            exact hn
      rw [if_neg t3]
      obtain ⟨a1, a2, a3⟩ := (insertedAt_iff n).mp h1
      refine all_inserted_literal n hn _ ?_ _ ?_ _ ?_ tok _ (by rfl) (by rfl) (by rfl)
        (by rfl) (by rfl)
      · cases n.Children <;> rfl
      · cases hC : n.Children with
        | none => rfl
        | some m =>
          rcases a3 with a3 | a3
          · rw [hC] at a3
            exact Option.noConfusion a3
          · exact a3
      · apply ih
        cases hC : n.Children with
        | none => exact all_inserted_empty
        | some m =>
          simp only []
          cases hG : mapGet m [tok] with
          | none => exact all_inserted_empty
          | some c =>
            refine h2 ([tok], c) ?_
            rw [hC]
            exact mapGet_mem _ _ _ hG

theorem addRoutes_inserted {H : Type} (calls : List (Str × Str × Option H)) :
    ∀ t : Trie H, Node.all insertedAt t.root = true →
      Node.all insertedAt (t.AddRoutes calls).root = true := by
  induction calls with
  | nil =>
    intro t ht
    exact ht
  | cons call rest ih =>
    intro t ht
    exact ih (t.AddRoute call.1 call.2.1 call.2.2).1 (addRouteLoop_inserted _ _ _ _ ht)

/-! ## Lemmas on the facade -/

theorem traverseTrie_snd {H σ : Type} (mf : findContext → Str → Str → Node H → σ → σ)
    (t : Trie H) (path : Str) (c : findContext) (s : σ) :
    (traverseTrie mf t path c s).2 = visit mf c t.root path s := rfl

theorem traverseTrie_compress {H σ : Type} (mf : findContext → Str → Str → Node H → σ → σ)
    (hmf : ∀ c m p (n1 n2 : Node H) s, n1.HttpMethodToRoute = n2.HttpMethodToRoute →
      mf c m p n1 s = mf c m p n2 s)
    (t : Trie H) (ht : Node.all mergeableAt t.root = true) (path : Str) (c : findContext)
    (s : σ) :
    (traverseTrie mf t.Compress path c s).2 = (traverseTrie mf t path c s).2 := by
  rw [traverseTrie_snd, traverseTrie_snd]
  exact visit_compressFuel mf hmf c _ t.root ht path s

theorem findRoutesMatchFunc_routes {H : Type} :
    ∀ c m p (n1 n2 : Node H) s, n1.HttpMethodToRoute = n2.HttpMethodToRoute →
      findRoutesMatchFunc c m p n1 s = findRoutesMatchFunc c m p n2 s := by
  intro c m p n1 n2 s h
  simp only [findRoutesMatchFunc, h]

theorem findRoutesAndPathMatchedMatchFunc_routes {H : Type} :
    ∀ c m p (n1 n2 : Node H) s, n1.HttpMethodToRoute = n2.HttpMethodToRoute →
      findRoutesAndPathMatchedMatchFunc c m p n1 s =
        findRoutesAndPathMatchedMatchFunc c m p n2 s := by
  intro c m p n1 n2 s h
  simp only [findRoutesAndPathMatchedMatchFunc, h]

theorem findRoutesForPathMatchFunc_routes {H : Type} :
    ∀ c m p (n1 n2 : Node H) s, n1.HttpMethodToRoute = n2.HttpMethodToRoute →
      findRoutesForPathMatchFunc c m p n1 s = findRoutesForPathMatchFunc c m p n2 s := by
  intro c m p n1 n2 s h
  simp only [findRoutesForPathMatchFunc, h]

theorem recordTerminal_routes {H : Type} :
    ∀ c m p (n1 n2 : Node H) s, n1.HttpMethodToRoute = n2.HttpMethodToRoute →
      recordTerminal c m p n1 s = recordTerminal c m p n2 s := by
  intro c m p n1 n2 s h
  simp only [recordTerminal, h]

theorem terminals_eq {H : Type} (n : Node H) (path : Str) :
    terminals n path = visit recordTerminal (newFindContext [] path) n path [] := rfl

theorem visit_record_append {H : Type} (c : findContext) (n : Node H) (p : Str)
    (pre t : List (Option (List (Str × Option H)))) :
    visit recordTerminal c n p (pre ++ t) = pre ++ visit recordTerminal c n p t := by
  apply visit_rel (fun (s u : List (Option (List (Str × Option H)))) => s = pre ++ u)
  · intro c m p n s u hsu
    simp only [recordTerminal, hsu, List.append_assoc]
  · rfl

theorem visitOpt_record_append {H : Type} (c : findContext) (oc : Option (Node H)) (p : Str)
    (pre t : List (Option (List (Str × Option H)))) :
    visitOpt recordTerminal c oc p (pre ++ t) = pre ++ visitOpt recordTerminal c oc p t := by
  cases oc with
  | none => rfl
  | some ch => exact visit_record_append c ch p pre t

/-! ## Lemmas on `Route.save` -/

theorem getD_append_length (pre : List Str) (s : Str) (rest : List Str) :
    (pre ++ s :: rest).getD pre.length [] = s := by
  induction pre with
  | nil => rfl
  | cons a t ih => simpa only [List.cons_append, List.length_cons, List.getD_cons_succ] using ih

theorem saveLoop_spec :
    ∀ (rest pre : List Str) (p : pattern),
      namesLastPlaceholder (pre ++ rest) pre.length p →
      namesLastPlaceholder (pre ++ rest) (pre ++ rest).length (saveLoop rest pre.length p) := by
  intro rest
  induction rest with
  | nil =>
    intro pre p hp
    simpa only [saveLoop, List.append_nil] using hp
  | cons s rest ih =>
    intro pre p hp
    have hlen : (pre ++ [s]).length = pre.length + 1 := by simp
    have happ : pre ++ s :: rest = (pre ++ [s]) ++ rest := by simp
    have hget : (pre ++ s :: rest).getD pre.length [] = s := getD_append_length pre s rest
    simp only [saveLoop]
    split_ifs with hc
    · have h := ih (pre ++ [s]) { Exist := true, Id := s.drop 1, Pos := pre.length }
      rw [hlen, ← happ] at h
      apply h
      refine ⟨fun _ => ⟨Nat.lt_succ_self _, ?_, ?_⟩, fun he => Bool.noConfusion he⟩
      · show (pre ++ s :: rest).getD pre.length [] = ':' :: s.drop 1
        rw [hget]
        have h1 := List.take_append_drop 1 s
        rw [hc.2] at h1
        exact h1.symm
      · intro j h1 h2
        have h3 : pre.length < j := h1
        omega
    · have h := ih (pre ++ [s]) p
      rw [hlen, ← happ] at h
      apply h
      have hs : ((pre ++ s :: rest).getD pre.length []).take 1 ≠ [':'] := by
        rw [hget]
        intro h4
        apply hc
        refine ⟨?_, h4⟩
        cases s with
        | nil => simp at h4
        | cons a t => simp
      refine ⟨?_, ?_⟩
      · intro he
        obtain ⟨h1, h2, h3⟩ := hp.1 he
        refine ⟨by omega, h2, ?_⟩
        intro j hj1 hj2
        by_cases hj : j < pre.length
        · exact h3 j hj1 hj
        · have hj3 : j = pre.length := by omega
          rw [hj3]
          exact hs
      · intro he j hj
        by_cases hj2 : j < pre.length
        · exact hp.2 he j hj2
        · have hj3 : j = pre.length := by omega
          rw [hj3]
          exact hs

theorem newRoute_pattern {Hd : Type} (url : Str) (h : Hd) :
    namesLastPlaceholder (splitSlash url) (splitSlash url).length (NewRoute url h).pattern := by
  have := saveLoop_spec (splitSlash url) [] { Exist := false, Id := [], Pos := 0 }
    ⟨fun he => Bool.noConfusion he, fun _ j hj => absurd hj (Nat.not_lt_zero j)⟩
  simpa only [List.nil_append, List.length_nil] using this

/-! ## `compress` on a compressed tree -/

theorem compressStep_self {H : Type} (f : Nat) (n : Node H)
    (hp : n.ParamChild.map (compressFuel f) = n.ParamChild)
    (hr : n.RelaxedChild.map (compressFuel f) = n.RelaxedChild)
    (hs : n.SplatChild.map (compressFuel f) = n.SplatChild) :
    compressStep f n n.Children n.ChildrenKeyLen = n := by
  simp only [compressStep, hp, hr, hs]
  cases n
  rfl

/-- `compress` leaves a tree unchanged in which it has nothing to merge. -/
theorem compressFuel_stable {H : Type} :
    ∀ (f : Nat) (n : Node H), Node.all stableAt n = true → compressFuel f n = n := by
  intro f
  induction f with
  | zero =>
    intro n _
    exact compressFuel_zero n
  | succ f ih =>
    intro n hn
    obtain ⟨hP, hch, hpc, hrc, hsc⟩ := (all_iff stableAt n).mp hn
    have hopt : ∀ oc : Option (Node H), (∀ c, oc = some c → Node.all stableAt c = true) →
        oc.map (compressFuel f) = oc := by
      intro oc h
      cases oc with
      | none => rfl
      | some c => simp only [Option.map_some', ih c (h c rfl)]
    have hself := compressStep_self f n (hopt _ hpc) (hopt _ hrc) (hopt _ hsc)
    rw [compressFuel_succ]
    cases hC : n.Children with
    | none =>
      simp only []
      rw [hC] at hself
      exact hself
    | some m =>
      rw [hC] at hself
      simp only [hC, entriesOf] at hch
      simp only []
      by_cases h0 : m.length = 0
      · rw [if_pos h0]
        exact hself
      · rw [if_neg h0]
        have hcan : canCompress m = false := by
          simp only [stableAt, hC, entriesOf, Bool.or_eq_true, List.isEmpty_iff,
            Bool.not_eq_true'] at hP
          rcases hP with hP | hP
          · rw [hP] at h0
            exact absurd rfl h0
          · exact hP
        rw [hcan]
        simp only [Bool.false_eq_true, if_false]
        have hmap : (m.map fun kv => (kv.1, compressFuel f kv.2)) = m := by
          conv_rhs => rw [← List.map_id m]
          apply List.map_congr_left
          intro kv hkv
          rw [ih kv.2 (hch kv hkv)]
          rfl
        rw [hmap]
        exact hself

/-- With enough fuel `compress` ends in a tree in which it has nothing to merge. -/
theorem compressFuel_all_stable {H : Type} :
    ∀ (f : Nat) (n : Node H), n.size ≤ f → Node.all stableAt (compressFuel f n) = true := by
  intro f
  induction f with
  | zero =>
    intro n hf
    have := size_pos n
    omega
  | succ f ih =>
    intro n hf
    rw [size_eq] at hf
    have hopt : ∀ oc : Option (Node H), sizeOfChild oc ≤ f →
        ∀ c, oc.map (compressFuel f) = some c → Node.all stableAt c = true := by
      intro oc h c hc
      simp only [Option.map_eq_some'] at hc
      obtain ⟨x, hx, rfl⟩ := hc
      apply ih
      rw [hx] at h
      exact h
    have hstep : ∀ ch kl, stableAt (compressStep f n ch kl) = true →
        (∀ kv ∈ entriesOf ch, Node.all stableAt kv.2 = true) →
        Node.all stableAt (compressStep f n ch kl) = true := by
      intro ch kl h1 h2
      rw [all_iff]
      exact ⟨h1, h2, hopt n.ParamChild (by omega), hopt n.RelaxedChild (by omega),
        hopt n.SplatChild (by omega)⟩
    rw [compressFuel_succ]
    cases hC : n.Children with
    | none =>
      simp only []
      apply hstep
      · rfl
      · intro kv hkv
        exact absurd hkv (List.not_mem_nil _)
    | some m =>
      simp only [hC, sizeOfChildren] at hf
      simp only []
      by_cases h0 : m.length = 0
      · rw [if_pos h0]
        have hm : m = [] := List.length_eq_zero.mp h0
        subst hm
        apply hstep
        · rfl
        · intro kv hkv
          exact absurd hkv (List.not_mem_nil _)
      · rw [if_neg h0]
        by_cases hcan : canCompress m = true
        · rw [if_pos hcan]
          apply ih
          have hm := sizeChildren_mergeChildren_le m
          have hpc := sizeOfChild_map_le (compressFuel f) (size_compressFuel_le f) n.ParamChild
          have hrc := sizeOfChild_map_le (compressFuel f) (size_compressFuel_le f)
            n.RelaxedChild
          have hsc := sizeOfChild_map_le (compressFuel f) (size_compressFuel_le f) n.SplatChild
          have hlen : 0 < m.length := Nat.pos_of_ne_zero h0
          rw [size_eq]
          simp only [compressStep, sizeOfChildren]
          omega
        · rw [if_neg hcan]
          apply hstep
          · simp only [stableAt, compressStep, entriesOf, canCompress_map_compressFuel,
              Bool.or_eq_true, Bool.not_eq_true']
            right
            simpa using hcan
          · intro kv hkv
            simp only [entriesOf] at hkv
            obtain ⟨kv0, hkv0, rfl⟩ := List.mem_map.mp hkv
            apply ih
            have := size_le_sizeChildren m kv0 hkv0
            omega

/-! ## The nodes reported below a child -/

/-- A callback that ignores the context visits alike in every context. -/
theorem visit_context_irrelevant {H σ : Type} (mf : findContext → Str → Str → Node H → σ → σ)
    (hmf : ∀ c1 c2 m1 m2 p n s, mf c1 m1 p n s = mf c2 m2 p n s) (c1 c2 : findContext) :
    ∀ (n : Node H) (path : Str) (s : σ), visit mf c1 n path s = visit mf c2 n path s := by
  intro n
  induction n using Node.induct with
  | step n hch hpc hrc hsc =>
    intro path s
    have hopt : ∀ (oc : Option (Node H)),
        (∀ child, oc = some child → ∀ (path : Str) (s : σ),
          visit mf c1 child path s = visit mf c2 child path s) →
        ∀ (p : Str) (s : σ), visitOpt mf c1 oc p s = visitOpt mf c2 oc p s := by
      intro oc ih p s
      cases oc with
      | none => rfl
      | some ch => exact ih ch rfl p s
    have hhead : traverseHead mf n path c1 s = traverseHead mf n path c2 s := by
      simp only [traverseHead]
      split_ifs
      · exact hmf _ _ _ _ _ _ _
      · rfl
    have hlit : ∀ child, literalChild n path = some child → ∀ (path : Str) (s : σ),
        visit mf c1 child path s = visit mf c2 child path s := by
      intro child hchild
      simp only [literalChild] at hchild
      split_ifs at hchild
      cases hC : n.Children with
      | none =>
        rw [hC] at hchild
        exact Option.noConfusion hchild
      | some m =>
        rw [hC] at hchild
        exact hch m hC _ (mapGet_mem _ _ _ hchild)
    rw [visit_eq, visit_eq, hhead]
    split_ifs
    · rfl
    · rw [hopt _ hsc, hopt _ hpc, hopt _ hrc, hopt _ hlit]

theorem visit_record_eq_terminals {H : Type} (c : findContext) (n : Node H) (p : Str)
    (s : List (Option (List (Str × Option H)))) :
    visit recordTerminal c n p s = s ++ terminals n p := by
  have h := visit_record_append c n p s []
  rw [List.append_nil] at h
  rw [h, terminals_eq]
  congr 1
  exact visit_context_irrelevant recordTerminal (fun _ _ _ _ _ _ _ => rfl) _ _ n p []

/-! ## The claims -/

/-- C1, at the input of `TestFindRoute`: after `AddRoute("GET", "/", "root")` on a new
trie, which returns no error, and `Compress()`, the lookup `FindRoutes("GET", "/")`
returns no match at all (the claim says one, with route "root"); the same holds
without `Compress()`. -/
theorem findRoutes_literal_registered_empty :
    ((New : Trie String).AddRoute GET "/".toList (some "root")).2 = none ∧
    (trieOf [("/", "root")]).Compress.FindRoutes GET "/".toList = [] ∧
    (trieOf [("/", "root")]).FindRoutes GET "/".toList = [] := by
  decide

/-- C2, at the inputs "/r/42" and "/r/1": after `AddRoute("GET", "/r/:id", "resource")`
and `Compress()`, `FindRoutes` returns no match (the claim says one, binding `id`).
Moreover on the node tree of "/r/:id" whose terminal node is marked by hand, the one
match reported has an empty `Params`: the traversal binds no placeholder. -/
theorem findRoutes_named_placeholder_empty :
    (trieOf [("/r/:id", "resource")]).Compress.FindRoutes GET "/r/42".toList = [] ∧
    (trieOf [("/r/:id", "resource")]).Compress.FindRoutes GET "/r/1".toList = [] ∧
    namedTerminalMarked.FindRoutes GET "/r/42".toList =
      [{ Route := some "resource", Params := [] }] := by
  decide

/-- C3, at the input of `TestFindRoute`: after
`AddRoute("GET", "/user/#username/property", "user_property")` and `Compress()`,
`FindRoutes("GET", "/user/antoine.imbert/property")` returns no match. -/
theorem findRoutes_relaxed_placeholder_empty :
    (trieOf [("/user/#username/property", "user_property")]).Compress.FindRoutes GET
      "/user/antoine.imbert/property".toList = [] := by
  decide

/-- C4, at the input of `TestFindRoute`: after
`AddRoute("GET", "/r/:id/property.*format", "property_format")` and `Compress()`,
`FindRoutes("GET", "/r/1/property.json")` returns no match. -/
theorem findRoutes_splat_placeholder_empty :
    (trieOf [("/r/:id/property.*format", "property_format")]).Compress.FindRoutes GET
      "/r/1/property.json".toList = [] := by
  decide

/-- C5, at the inputs of `TestFindRouteMultipleMatches`: with the seven patterns
registered and `Compress()` called, `FindRoutes` returns no match for "/r/1", "/r/2"
and "/s/1" (the claim says two, two and three). -/
theorem findRoutes_multiple_matches_empty :
    (trieOf multipleMatchesRoutes).Compress.FindRoutes GET "/r/1".toList = [] ∧
    (trieOf multipleMatchesRoutes).Compress.FindRoutes GET "/r/2".toList = [] ∧
    (trieOf multipleMatchesRoutes).Compress.FindRoutes GET "/s/1".toList = [] := by
  decide

/-- C6, at the input of `TestDupeInsert`: after `AddRoute("GET", "/", "1")` the call
`AddRoute("GET", "/", "2")` returns a nil error, and the node `root.Children["/"]`
exists with a nil `HttpMethodToRoute`, so it maps GET to nil and not to "1". -/
theorem addRoute_duplicate_route_accepted :
    ((trieOf [("/", "1")]).AddRoute GET "/".toList (some "2")).2 = none ∧
    (match ((trieOf [("/", "1")]).AddRoute GET "/".toList (some "2")).1.root.Children with
      | none => none
      | some m => (mapGet m "/".toList).map fun n => n.HttpMethodToRoute.isSome) =
        some false := by
  decide

/-- C7: inconsistent names of a named (`relaxed = false`, sigil ':') or relaxed
(`relaxed = true`, sigil '#') placeholder are rejected.  On every trie, for a literal
prefix `p`, two names `a ≠ b` and continuations `r1`, `r2`: once `AddRoute` of
`p + sigil + a + r1` has returned nil, and after any further `AddRoute` calls,
`AddRoute` of `p + sigil + b + r2` returns a non-nil error. -/
theorem addRoute_inconsistent_placeholder_name_rejected {H : Type} (relaxed : Bool)
    (t : Trie H) (m1 m2 : Str) (h1 h2 : Option H) (others : List (Str × Str × Option H))
    (p a b r1 r2 : Str)
    (hp : isLiteralPrefix p = true)
    (ha : isPlaceholderName relaxed a = true) (hb : isPlaceholderName relaxed b = true)
    (hr1 : isContinuation relaxed r1 = true) (hr2 : isContinuation relaxed r2 = true)
    (hab : a ≠ b)
    (hreg : (t.AddRoute m1 (p ++ placeholderSigil relaxed :: (a ++ r1)) h1).2 = none) :
    (((t.AddRoute m1 (p ++ placeholderSigil relaxed :: (a ++ r1)) h1).1.AddRoutes
        others).AddRoute m2 (p ++ placeholderSigil relaxed :: (b ++ r2)) h2).2 ≠ none := by
  have hlen : ∀ q : Str, p.length < (p ++ placeholderSigil relaxed :: q).length := by
    intro q
    simp
  obtain ⟨x, hx, hx2⟩ :=
    addRouteLoop_registers_placeholder relaxed a r1 ha hr1 p t.root _ hp (hlen _) hreg
  obtain ⟨y, hy, hy2⟩ :=
    addRoutes_walkLiteral relaxed a p others
      (t.AddRoute m1 (p ++ placeholderSigil relaxed :: (a ++ r1)) h1).1 x hx hx2
  exact addRouteLoop_rejects_other_name relaxed a b r2 hab hb hr2 p _ y _ hp (hlen _) hy hy2

/-- C7 at the inputs of `TestConsistentPlaceholderName`: "/r/:id" then "/r/:rid/other",
and, on the trie that results, "/r/#id" then "/r/#rid/other". -/
theorem addRoute_inconsistent_placeholder_name_rejected_witness :
    ((New : Trie String).AddRoute GET "/r/:id".toList (some "oneph")).2 = none ∧
    (((New : Trie String).AddRoute GET "/r/:id".toList (some "oneph")).1.AddRoute GET
      "/r/:rid/other".toList (some "twoph")).2 ≠ none ∧
    ((trieOf [("/r/:id", "oneph"), ("/r/:rid/other", "twoph")]).AddRoute GET
      "/r/#id".toList (some "oneph")).2 = none ∧
    (((trieOf [("/r/:id", "oneph"), ("/r/:rid/other", "twoph")]).AddRoute GET
      "/r/#id".toList (some "oneph")).1.AddRoute GET
      "/r/#rid/other".toList (some "twoph")).2 ≠ none :=
  ⟨by decide,
   addRoute_inconsistent_placeholder_name_rejected false New GET GET (some "oneph")
     (some "twoph") [] "/r/".toList "id".toList "rid".toList [] "/other".toList
     (by decide) (by decide) (by decide) (by decide) (by decide) (by decide) (by decide),
   by decide,
   addRoute_inconsistent_placeholder_name_rejected true
     (trieOf [("/r/:id", "oneph"), ("/r/:rid/other", "twoph")]) GET GET (some "oneph")
     (some "twoph") [] "/r/".toList "id".toList "rid".toList [] "/other".toList
     (by decide) (by decide) (by decide) (by decide) (by decide) (by decide) (by decide)⟩

/-- C8, at the input of `TestConsistentPlaceholderName`: after
`AddRoute("GET", "/r/*id", "oneph")` on a new trie, which returns nil,
`AddRoute("GET", "/r/*rid", "twoph")` returns a nil error too (the claim and the test
say non-nil); the node reached along "/r/" keeps the splat name "id". -/
theorem addRoute_inconsistent_splat_accepted :
    ((New : Trie String).AddRoute GET "/r/*id".toList (some "oneph")).2 = none ∧
    ((trieOf [("/r/*id", "oneph")]).AddRoute GET "/r/*rid".toList (some "twoph")).2 = none ∧
    (walkLiteral ((trieOf [("/r/*id", "oneph")]).AddRoute GET "/r/*rid".toList
      (some "twoph")).1.root "/r/".toList).map (fun n => n.SplatName) =
      some "id".toList := by
  decide

/-- C9: a placeholder name used twice in one pattern is rejected.  On every trie,
for every pattern whose placeholder names (named, relaxed and splat together) are not
pairwise distinct, `AddRoute` returns a non-nil error. -/
theorem addRoute_duplicate_placeholder_name_rejected {H : Type} (t : Trie H)
    (httpMethod pathExp : Str) (route : Option H)
    (hdup : ¬ (placeholderNames pathExp).Nodup) :
    (t.AddRoute httpMethod pathExp route).2 ≠ none :=
  addRouteLoop_duplicate_name pathExp.length t.root pathExp [] (Nat.le_refl _)
    List.nodup_nil (by simpa [placeholderNames] using hdup)

/-- C9 at the inputs of `TestDuplicateName`: "/r/:id/o/:id", "/r/:id/o/*id" and
"/r/:id/o/#id", each on the trie the calls before it leave. -/
theorem addRoute_duplicate_placeholder_name_rejected_witness :
    ¬ (placeholderNames "/r/:id/o/:id".toList).Nodup ∧
    ((New : Trie String).AddRoute GET "/r/:id/o/:id".toList (some "two")).2 ≠ none ∧
    ((trieOf [("/r/:id/o/:id", "two")]).AddRoute GET
      "/r/:id/o/*id".toList (some "two")).2 ≠ none ∧
    ((trieOf [("/r/:id/o/:id", "two"), ("/r/:id/o/*id", "two")]).AddRoute GET
      "/r/:id/o/#id".toList (some "two")).2 ≠ none :=
  ⟨by decide,
   addRoute_duplicate_placeholder_name_rejected New GET _ (some "two") (by decide),
   addRoute_duplicate_placeholder_name_rejected _ GET _ (some "two") (by decide),
   addRoute_duplicate_placeholder_name_rejected _ GET _ (some "two") (by decide)⟩

/-- C10, at the witness of the claim: with only `GET /r/1` registered,
`FindRoutesAndPathMatched("POST", "/r/1")` returns no match and `pathMatched == false`
(the claim says `true`), with and without `Compress()`. -/
theorem findRoutesAndPathMatched_registered_path_false :
    (trieOf [("/r/1", "resource1")]).Compress.FindRoutesAndPathMatched POST "/r/1".toList =
      ([], false) ∧
    (trieOf [("/r/1", "resource1")]).FindRoutesAndPathMatched POST "/r/1".toList =
      ([], false) := by
  decide

/-- C11: compression is transparent at the facade.  For every sequence of `AddRoute`
calls on a trie from `New()` (errors included), every method and every path,
`FindRoutes`, `FindRoutesForPath` and `FindRoutesAndPathMatched` return the same result
on the trie after `Compress()` as on the trie without it. -/
theorem compress_transparent {H : Type} (calls : List (Str × Str × Option H))
    (httpMethod path : Str) :
    ((New : Trie H).AddRoutes calls).Compress.FindRoutes httpMethod path =
      ((New : Trie H).AddRoutes calls).FindRoutes httpMethod path ∧
    ((New : Trie H).AddRoutes calls).Compress.FindRoutesForPath path =
      ((New : Trie H).AddRoutes calls).FindRoutesForPath path ∧
    ((New : Trie H).AddRoutes calls).Compress.FindRoutesAndPathMatched httpMethod path =
      ((New : Trie H).AddRoutes calls).FindRoutesAndPathMatched httpMethod path := by
  have ht : Node.all mergeableAt ((New : Trie H).AddRoutes calls).root = true :=
    uncompressed_mergeable _ (inserted_uncompressed _
      (addRoutes_inserted calls New all_inserted_empty))
  exact ⟨traverseTrie_compress _ findRoutesMatchFunc_routes _ ht _ _ _,
    traverseTrie_compress _ findRoutesForPathMatchFunc_routes _ ht _ _ _,
    traverseTrie_compress _ findRoutesAndPathMatchedMatchFunc_routes _ ht _ _ _⟩

/-- C12, at a pattern under two methods: after `AddRoute("GET", "/r/1", "h1")` and
`AddRoute("POST", "/r/1", "h2")`, which both return nil, `FindRoutesForPath("/r/1")`
returns no match, with and without `Compress()` (the claim says two, with the routes
"h1" and "h2"). -/
theorem findRoutesForPath_registered_empty :
    (((New : Trie String).AddRoute GET "/r/1".toList (some "h1")).1.AddRoute POST
        "/r/1".toList (some "h2")).2 = none ∧
    (((New : Trie String).AddRoute GET "/r/1".toList (some "h1")).1.AddRoute POST
        "/r/1".toList (some "h2")).1.Compress.FindRoutesForPath "/r/1".toList = [] ∧
    (((New : Trie String).AddRoute GET "/r/1".toList (some "h1")).1.AddRoute POST
        "/r/1".toList (some "h2")).1.FindRoutesForPath "/r/1".toList = [] := by
  decide

/-- C13, as the code has it: a splat placeholder matches a non-empty remainder only.  At
a node reached with an empty remaining path, `traverseNode` reports the node itself if
it is terminal and descends into no child, the splat child included; at a node with a
splat child and a non-empty remaining path, it descends into the splat child with an
empty remaining path, and a terminal splat child is the first node reported. -/
theorem splat_matches_nonempty_remainder {H : Type} (n : Node H) :
    terminals n [] = (if n.HttpMethodToRoute.isSome then [n.HttpMethodToRoute] else []) ∧
    ∀ (path : Str) (child : Node H), path ≠ [] → n.SplatChild = some child →
      child.HttpMethodToRoute.isSome = true →
      ∃ rest, terminals n path = child.HttpMethodToRoute :: rest := by
  constructor
  · rw [terminals_eq, visit_nil]
    rfl
  · intro path child hp hs hr
    rw [terminals_eq, visit_eq, if_neg hp, hs, visitOpt_some, visit_nil, if_pos hr]
    have h0 : traverseHead recordTerminal n path (newFindContext [] path)
        ([] : List (Option (List (Str × Option H)))) = [] := by
      simp only [traverseHead, hp, and_false, if_false]
    rw [h0]
    have h1 : recordTerminal (newFindContext [] path) (newFindContext [] path).method []
        child [] = [child.HttpMethodToRoute] ++ [] := rfl
    rw [h1, visitOpt_record_append, visitOpt_record_append, visitOpt_record_append]
    exact ⟨_, rfl⟩

/-- C13 as amended, at the node of "/s/*rest" with the splat child marked: nothing is
reported for the empty path at the root, the splat child is reported for the path "1". -/
theorem splat_matches_nonempty_remainder_witness :
    terminals splatTerminalMarked.root [] = [] ∧
    ∃ rest, terminals splatNodeMarked "1".toList = some [(GET, some "special_all")] :: rest :=
  ⟨(splat_matches_nonempty_remainder splatTerminalMarked.root).1,
   (splat_matches_nonempty_remainder splatNodeMarked).2 "1".toList _ (by decide) rfl rfl⟩

/-- C13 as stated fails at its witness `p = "/s/"`: after
`AddRoute("GET", "/s/*rest", "special_all")` on a new trie, `FindRoutes("GET", "/s/")`
returns no match; it returns none either on the tree whose splat child is marked by
hand, which does match "/s/1". -/
theorem findRoutes_splat_empty_remainder_no_match :
    (trieOf [("/s/*rest", "special_all")]).FindRoutes GET "/s/".toList = [] ∧
    splatTerminalMarked.FindRoutes GET "/s/".toList = [] ∧
    splatTerminalMarked.FindRoutes GET "/s/1".toList =
      [{ Route := some "special_all", Params := [] }] := by
  decide

/-- C14: `FindRoutesAndPathMatched` refines `FindRoutes`.  For every trie (any node
tree), every method and every path, the match list returned by
`FindRoutesAndPathMatched` is the list returned by `FindRoutes`, element by element. -/
theorem findRoutesAndPathMatched_refines_findRoutes {H : Type} (t : Trie H)
    (httpMethod path : Str) :
    (t.FindRoutesAndPathMatched httpMethod path).1 = t.FindRoutes httpMethod path := by
  simp only [Trie.FindRoutesAndPathMatched, Trie.FindRoutes, traverseTrie_snd]
  apply visit_rel (fun (s : List (Match H) × Bool) (u : List (Match H)) => s.1 = u)
  · intro c m p n s u hsu
    simp only [findRoutesAndPathMatchedMatchFunc, findRoutesMatchFunc]
    cases routeOf n.HttpMethodToRoute m with
    | none => exact hsu
    | some r =>
      simp only []
      rw [hsu]
  · rfl

/-- C15: the segment parser.  For every string `s`, `splitParamIndex s` is the length of
the longest prefix of `s` with no '/' and no '.', `splitRelaxedIndex s` the length of the
longest prefix with no '/': the index is at most `len(s)`, no terminator occurs before
it, it is `len(s)` or the byte at it is a terminator, and no longer prefix is free of
terminators.  `splitParam` and `splitRelaxed` cut `s` at that index, and the two parts
concatenate to `s`. -/
theorem segment_parser_correct (s : Str) :
    isLongestSpan (fun c => c = '/' ∨ c = '.') s (splitParamIndex s) ∧
    isLongestSpan (fun c => c = '/') s (splitRelaxedIndex s) ∧
    splitParam s = (s.take (splitParamIndex s), s.drop (splitParamIndex s)) ∧
    splitRelaxed s = (s.take (splitRelaxedIndex s), s.drop (splitRelaxedIndex s)) ∧
    (splitParam s).1 ++ (splitParam s).2 = s ∧
    (splitRelaxed s).1 ++ (splitRelaxed s).2 = s :=
  ⟨splitParamIndex_longest s, splitRelaxedIndex_longest s, rfl, rfl,
    by simp [splitParam], by simp [splitRelaxed]⟩

/-- C16, as the code has it: for every route built by `NewRoute(url, h)` and every
path, if `Match(path)` returns true then the path has as many '/'-separated segments as
the url, its last segment is not empty, and the values returned bind `pattern.Id` to the
segment of the path at `pattern.Pos`; when the url has a segment starting with ':',
`pattern` names the last such segment (its position and the text after the ':'). -/
theorem match_accepts {Hd : Type} (url : Str) (h : Hd) (path : Str)
    (hm : ((NewRoute url h).Match path).2 = true) :
    (splitSlash path).length = (splitSlash url).length ∧
    (splitSlash path).getD ((splitSlash url).length - 1) [] ≠ [] ∧
    ((NewRoute url h).Match path).1 =
      some [((NewRoute url h).pattern.Id,
        [(splitSlash path).getD (NewRoute url h).pattern.Pos []])] ∧
    namesLastPlaceholder (splitSlash url) (splitSlash url).length (NewRoute url h).pattern := by
  have hsize : (NewRoute url h).Token.size = (splitSlash url).length := rfl
  simp only [Route.Match, hsize] at hm ⊢
  by_cases h1 : path.length ≥ (splitSlash url).length ∧
      (NewRoute url h).Path.take (NewRoute url h).pattern.Pos =
        path.take (NewRoute url h).pattern.Pos
  · rw [if_pos h1] at hm ⊢
    by_cases h2 : (splitSlash path).length = (splitSlash url).length ∧
        (splitSlash path).getD ((splitSlash url).length - 1) [] ≠ []
    · rw [if_pos h2]
      exact ⟨h2.1, h2.2, rfl, newRoute_pattern url h⟩
    · rw [if_neg h2] at hm
      exact absurd hm (by decide)
  · rw [if_neg h1] at hm
    exact absurd hm (by decide)

/-- C16 as amended, at the url "/user/:id" and the path "/user/42": `id` is bound to
"42". -/
theorem match_accepts_witness :
    ((NewRoute "/user/:id".toList ()).Match "/user/42".toList).2 = true ∧
    ((NewRoute "/user/:id".toList ()).Match "/user/42".toList).1 =
      some [("id".toList, ["42".toList])] :=
  ⟨by decide, (match_accepts "/user/:id".toList () "/user/42".toList (by decide)).2.2.1⟩

/-- C16 as stated fails: the route of "/a/:id/b" accepts the path "/a/1/zzz", whose
last segment is not "b", and the route of "/a/b", which has no placeholder, accepts
"/x/y"; `Match` compares no segment after the placeholder, and none without one. -/
theorem match_accepts_other_segment :
    (NewRoute "/a/:id/b".toList ()).Match "/a/1/zzz".toList =
      (some [("id".toList, ["1".toList])], true) ∧
    segmentsAgree "/a/:id/b".toList "/a/1/zzz".toList = false ∧
    (NewRoute "/a/b".toList ()).Match "/x/y".toList =
      (some [("".toList, ["".toList])], true) ∧
    segmentsAgree "/a/b".toList "/x/y".toList = false :=
  ⟨by decide, by decide, by decide, by decide⟩

/-- C17: the literal keys of a node have one length.  For every sequence of `AddRoute`
calls on a trie from `New()` (errors included), at every node of the trie all keys of
`Children` have length `ChildrenKeyLen`, and length 1; after `Compress()`, at every node
all keys of `Children` have length `ChildrenKeyLen`. -/
theorem literal_keys_equal_length {H : Type} (calls : List (Str × Str × Option H)) :
    Node.all keyLenAt ((New : Trie H).AddRoutes calls).root = true ∧
    Node.all keyLenOneAt ((New : Trie H).AddRoutes calls).root = true ∧
    Node.all keyLenAt ((New : Trie H).AddRoutes calls).Compress.root = true := by
  have hu : isUncompressed ((New : Trie H).AddRoutes calls).root = true :=
    inserted_uncompressed _ (addRoutes_inserted calls New all_inserted_empty)
  have hm := uncompressed_mergeable _ hu
  exact ⟨mergeable_keyLen _ hm, uncompressed_keyLenOne _ hu,
    mergeable_keyLen _ (compressFuel_mergeable _ _ hm)⟩

/-- C18, at the input of `TestTrieCompression`: after `AddRoute` of "/abc" and "/adc",
both patterns are in the trie, and after `Compress()` the literal map of the root is
non-nil and empty, with `ChildrenKeyLen == 5` (the claim and the test say the keys
"/abc" and "/adc", and the claim the length 4). -/
theorem compress_collapses_leaves :
    ((walkLiteral (trieOf compressionRoutes).root "/abc".toList).isSome = true ∧
     (walkLiteral (trieOf compressionRoutes).root "/adc".toList).isSome = true) ∧
    (trieOf compressionRoutes).Compress.root.Children.isSome = true ∧
    keysOf (trieOf compressionRoutes).Compress.root.Children = [] ∧
    (trieOf compressionRoutes).Compress.root.ChildrenKeyLen = 5 := by
  decide

/-- C19: `compress` preserves the traversal.  For every node tree in uncompressed form
(at every node the literal keys are distinct and of length 1, and `ChildrenKeyLen` is 1
where there is a key), whatever the route maps at its nodes, and for every path, the
route maps of the nodes on which `traverseNode` calls `matchFunc` are the same, in the
same order, after `compress()` as before. -/
theorem compress_preserves_terminals {H : Type} (n : Node H)
    (hn : isUncompressed n = true) (path : Str) :
    terminals n.compress path = terminals n path :=
  visit_compressFuel recordTerminal recordTerminal_routes _ _ n
    (uncompressed_mergeable n hn) path []

/-- C19 at the uncompressed tree of "/r/:id" with its terminal node marked, and the
path "/r/42": the terminal node is reported, before and after `compress()`. -/
theorem compress_preserves_terminals_witness :
    isUncompressed namedTerminalMarkedUncompressed = true ∧
    terminals namedTerminalMarkedUncompressed "/r/42".toList =
      [some [(GET, some "resource")]] ∧
    terminals namedTerminalMarkedUncompressed.compress "/r/42".toList =
      terminals namedTerminalMarkedUncompressed "/r/42".toList :=
  ⟨by decide, by decide,
    compress_preserves_terminals namedTerminalMarkedUncompressed (by decide) "/r/42".toList⟩

/-- C20, at a splat child that exists under another name: on the trie left by
`AddRoute("GET", "/r/*id", "oneph")`, `AddRoute("GET", "/r/*rid", "twoph")` returns nil,
and the node reached along "/r/" has a splat child whose recorded name is "id", not the
name "rid" of the token. -/
theorem addRoute_splat_name_not_recorded :
    ((trieOf [("/r/*id", "oneph")]).AddRoute GET "/r/*rid".toList (some "twoph")).2 = none ∧
    (walkLiteral ((trieOf [("/r/*id", "oneph")]).AddRoute GET "/r/*rid".toList
      (some "twoph")).1.root "/r/".toList).map (fun n => (n.SplatChild.isSome, n.SplatName)) =
      some (true, "id".toList) := by
  decide

/-- C21, as the code has it: named and relaxed placeholders match a run that may be
empty.  At a node reached with a non-empty remaining path, `traverseNode` enters the
named child with `path[splitParamIndex(path):]` and the relaxed child with
`path[splitRelaxedIndex(path):]`, whatever the index, 0 included, and the nodes reported
below the child are among the nodes reported. -/
theorem placeholder_child_entered {H : Type} (n : Node H) (path : Str) (hp : path ≠ []) :
    (∀ child, n.ParamChild = some child →
      ∃ before after, terminals n path =
        before ++ terminals child (path.drop (splitParamIndex path)) ++ after) ∧
    (∀ child, n.RelaxedChild = some child →
      ∃ before after, terminals n path =
        before ++ terminals child (path.drop (splitRelaxedIndex path)) ++ after) := by
  constructor
  · intro child hc
    rw [terminals_eq, visit_eq, if_neg hp, hc, visitOpt_some, visit_record_eq_terminals]
    rw [← List.append_nil (_ ++ terminals child _), visitOpt_record_append,
      visitOpt_record_append]
    exact ⟨_, _, rfl⟩
  · intro child hc
    rw [terminals_eq, visit_eq, if_neg hp, hc, visitOpt_some, visit_record_eq_terminals]
    rw [← List.append_nil (_ ++ terminals child _), visitOpt_record_append]
    exact ⟨_, _, rfl⟩

/-- C21 as amended, at the node of "/:id/x" that has the named child, with the remaining
path "/x": the index is 0, the child is entered with "/x" and the terminal node below
it is reported. -/
theorem placeholder_child_entered_witness :
    splitParamIndex "/x".toList = 0 ∧
    terminals afterPlaceholder "/x".toList = [some [(GET, some "item")]] ∧
    ∃ before after, terminals (placeholderNode false) "/x".toList =
      before ++ terminals afterPlaceholder ("/x".toList.drop (splitParamIndex "/x".toList))
        ++ after :=
  ⟨by decide, by decide,
    (placeholder_child_entered (placeholderNode false) "/x".toList (by decide)).1
      afterPlaceholder rfl⟩

/-- C21 as stated fails at its example: on the node tree of "/:id/x" with its terminal
node marked, the path "//x" reports the terminal node and `FindRoutes` returns one
match, before and after `Compress()`; the same holds for "/#id/x". -/
theorem traverseNode_matches_empty_segment :
    terminals (placeholderSegmentMarked false).root "//x".toList =
      [some [(GET, some "item")]] ∧
    (placeholderSegmentMarked false).FindRoutes GET "//x".toList =
      [{ Route := some "item", Params := [] }] ∧
    (placeholderSegmentMarked false).Compress.FindRoutes GET "//x".toList =
      [{ Route := some "item", Params := [] }] ∧
    terminals (placeholderSegmentMarked true).root "//x".toList =
      [some [(GET, some "item")]] ∧
    (placeholderSegmentMarked true).FindRoutes GET "//x".toList =
      [{ Route := some "item", Params := [] }] :=
  ⟨by decide, by decide, by decide, by decide, by decide⟩

/-- C22: `compress` is idempotent.  For every node tree `n`, `compress()` applied to the
result of `compress()` returns that result: the two trees are equal, so every node has
the same `Children`, `ChildrenKeyLen`, placeholder children and names, and
`HttpMethodToRoute`. -/
theorem compress_idempotent {H : Type} (n : Node H) : n.compress.compress = n.compress :=
  compressFuel_stable _ _ (compressFuel_all_stable n.size n (Nat.le_refl _))

end Route
